import Mathlib

/-!
Verification of the CGP (Cartesian Genetic Programming) core of
`ReducingWastedEvaluationsCGP` (`evolution.py`, `util.py`).

The Python code is shallowly embedded:

* Gene arrays are `List Int`.  In the source, function genes store the
  function object itself; here a function gene stores an integer identifier
  drawn from `Params.function_list`, and an interpretation
  `F : Int → List Int → Int` (supplied at evaluation time) plays the role of
  calling the stored function object.  Equality of function objects becomes
  equality of identifiers.
* Randomness is made explicit: every call to the random source is fed from a
  caller-supplied draw.  `random.choice(lst)` becomes `lst.getD (d % lst.length)`
  and `random.randrange(a, b)` becomes `a + (d % (b - a))` for a draw `d`,
  which has exactly the support of the original.  The `while True` resampling
  loops of `random_gene` consume a list of draws and return `none` when the
  list is exhausted, and the unbounded loops of `one_active_mutation` and the
  per-gene Bernoulli decisions of `mutate` are treated the same way; `none`
  also models Python exceptions (`ValueError` of an empty `randrange`,
  `IndexError` of an out-of-range list access).
* Python negative indexing (`lst[i]` with `i < 0`, `lst[-n:]`, slice
  assignment `lst[-n:] = ...`) is reproduced exactly, including the
  degenerate `-0` cases.
* The scratch buffer holds `Option Int`: `none` is Python's `None` (a slot
  never written).  Reading a `none` slot during evaluation is folded into the
  error result `none`, since every function of the accompanying function sets
  fails on a `None` argument.
-/

namespace CGP

/-- The constructor parameters of `Individual.__init__`, shared (shallow)
between an individual and its clones. -/
structure Params where
  graph_length : Nat
  input_length : Nat
  output_length : Nat
  max_arity : Nat
  function_list : List Int
deriving DecidableEq, Repr

/-- `self.node_step = max_arity + 1`. -/
def node_step (p : Params) : Nat := p.max_arity + 1

/-- Total number of genes: `graph_length * node_step + output_length`. -/
def geneCount (p : Params) : Nat := p.graph_length * node_step p + p.output_length

/-- Python `lst[i]` for an `Int` index: negative indices count from the end;
`none` models `IndexError`. -/
def pyGet {α : Type} (l : List α) (i : Int) : Option α :=
  if i < 0 then
    if (l.length : Int) + i < 0 then none else l[((l.length : Int) + i).toNat]?
  else l[i.toNat]?

/-- Python `lst[i] = v` for an `Int` index; `none` models `IndexError`. -/
def pySet {α : Type} (l : List α) (i : Int) (v : α) : Option (List α) :=
  if i < 0 then
    if (l.length : Int) + i < 0 then none else some (l.set ((l.length : Int) + i).toNat v)
  else if i < (l.length : Int) then some (l.set i.toNat v) else none

/-- Python `lst[-n:]` (note `lst[-0:]` is the whole list). -/
def lastSlice (l : List Int) (n : Nat) : List Int :=
  if n = 0 then l else l.drop (l.length - n)

/-- `util.diff_count`: number of differing positions of two zipped lists. -/
def diff_count (data1 data2 : List Int) : Nat :=
  ((data1.zip data2).filter (fun xy => xy.1 ≠ xy.2)).length

/-- The `while True: choice = ...; if choice != invalid: return choice` loop of
`random_gene`, fed from a list of draws (`none` when the draws run out). -/
def sampleLoop (gen : Nat → Int) (invalid : Option Int) : List Nat → Option Int
  | [] => none
  | d :: ds => if some (gen d) ≠ invalid then some (gen d) else sampleLoop gen invalid ds

/-- The connection/output branch of `random_gene`: `return -1` when
`node_number + input_length == 1`, `ValueError` when the `randrange` is empty,
otherwise resample `randrange(-input_length, node_number)` until ≠ `invalid`. -/
def connDraw (p : Params) (node_number : Nat) (invalid : Option Int) (draws : List Nat) :
    Option Int :=
  if node_number + p.input_length = 1 then some (-1)
  else if node_number + p.input_length = 0 then none
  else sampleLoop (fun d => -(p.input_length : Int) + ((d % (node_number + p.input_length) : Nat) : Int))
    invalid draws

/-- `Individual.random_gene(index, invalid)`.  Output genes
(`node_number >= graph_length`) are connection genes with
`node_number = graph_length`; a function gene with a single-entry function
list returns that entry deterministically. -/
def random_gene (p : Params) (index : Nat) (invalid : Option Int) (draws : List Nat) :
    Option Int :=
  if p.graph_length ≤ index / node_step p then
    connDraw p p.graph_length invalid draws
  else if index % node_step p = 0 then
    if p.function_list.length = 1 then some (p.function_list.getD 0 0)
    else if p.function_list.length = 0 then none
    else sampleLoop (fun d => p.function_list.getD (d % p.function_list.length) 0) invalid draws
  else connDraw p (index / node_step p) invalid draws

/-- `Individual.connections(node_index)`:
`genes[node_start + 1 : node_start + node_step]`. -/
def connections (p : Params) (genes : List Int) (node_index : Nat) : List Int :=
  (genes.drop (node_step p * node_index + 1)).take (node_step p - 1)

/-- One test of the descending loop of `determine_active_nodes`: if the node is
already active, add its connection genes (`self.active.update(...)`).  The
Python `set` is represented as a duplicate-free list; `List.insert` prepends a
value only when absent, which is exactly set insertion. -/
def activeFold (p : Params) (genes : List Int) (acc : List Int) (k : Nat) : List Int :=
  if (k : Int) ∈ acc then (connections p genes k).foldl (fun a c => a.insert c) acc else acc

/-- `Individual.determine_active_nodes`: seed with the set of output genes,
sweep the node indices from `graph_length - 1` down to `0`, then keep the
non-negative members, sorted ascending (`sorted` of a Python set; insertion
sort of the duplicate-free member list computes the same list). -/
def determine_active_nodes (p : Params) (genes : List Int) : List Int :=
  let s := (List.range p.graph_length).reverse.foldl (activeFold p genes)
    (lastSlice genes p.output_length).dedup
  List.insertionSort (· ≤ ·) (s.filter (fun a => 0 ≤ a))

/-- `self.fitness = -sys.maxint` (the unset sentinel). -/
def unset_fitness : Int := -(2 ^ 63 - 1)

/-- An `Individual`: constructor parameters, gene list, cached active list,
persistent scratch buffer and fitness. -/
structure Individual where
  params : Params
  genes : List Int
  active : List Int
  scratch : List (Option Int)
  fitness : Int
deriving DecidableEq, Repr

/-- The gene list built by `Individual.__init__` for indices `[0, n)`, each
position filled by `random_gene(index)` on one draw. -/
def initGenes (p : Params) (draws : Nat → Nat) : Nat → Option (List Int)
  | 0 => some []
  | n + 1 =>
    match initGenes p draws n, random_gene p n none [draws n] with
    | some l, some v => some (l ++ [v])
    | _, _ => none

/-- `Individual.__init__`: random genes, freshly determined active list, a
scratch buffer of `graph_length + input_length` `None` slots, sentinel
fitness. -/
def mkIndividual (p : Params) (draws : Nat → Nat) : Option Individual :=
  (initGenes p draws (geneCount p)).map (fun genes =>
    { params := p, genes := genes, active := determine_active_nodes p genes,
      scratch := List.replicate (p.graph_length + p.input_length) none,
      fitness := unset_fitness })

/-- `self.scratch[-len(inputs):] = inputs[::-1]` (slice assignment; for
`len(inputs) = 0` Python's `-0` makes this replace the whole buffer). -/
def loadInputs (scratch : List (Option Int)) (inputs : List Int) : List (Option Int) :=
  scratch.take (if inputs.length = 0 then 0 else scratch.length - inputs.length) ++
    (inputs.reverse.map some)

/-- Read a list of scratch slots (`[self.scratch[con] for con in ...]`);
`none` on an out-of-range index or on a slot still holding `None`. -/
def readArgs (scratch : List (Option Int)) : List Int → Option (List Int)
  | [] => some []
  | c :: cs =>
    match pyGet scratch c with
    | none => none
    | some none => none
    | some (some x) => (readArgs scratch cs).map (fun xs => x :: xs)

/-- The `for node_index in self.active` loop of `evaluate`: look up the
function gene, read the connection arguments from scratch, store the result at
the node's own slot. -/
def evalNodes (p : Params) (F : Int → List Int → Int) (genes : List Int) :
    List Int → List (Option Int) → Option (List (Option Int))
  | [], scratch => some scratch
  | node :: rest, scratch =>
    match pyGet genes (node * (node_step p : Int)) with
    | none => none
    | some fid =>
      match readArgs scratch (connections p genes node.toNat) with
      | none => none
      | some args =>
        match pySet scratch node (some (F fid args)) with
        | none => none
        | some scratch2 => evalNodes p F genes rest scratch2

/-- `Individual.evaluate(inputs)` on an explicit starting scratch buffer:
load the inputs, run the active nodes in order, read the output genes. -/
def evaluate (p : Params) (F : Int → List Int → Int) (genes active : List Int)
    (inputs : List Int) (scratch0 : List (Option Int)) : Option (List Int) :=
  match evalNodes p F genes active (loadInputs scratch0 inputs) with
  | none => none
  | some scratch => readArgs scratch (lastSlice genes p.output_length)

/-- The `for node_index in self.active` loop of `asym_phenotypic_difference`,
accumulating the running count. -/
def asymFold (p : Params) (genes1 genes2 : List Int) : List Int → Nat → Option Nat
  | [], count => some count
  | node :: rest, count =>
    let c := diff_count (connections p genes1 node.toNat) (connections p genes2 node.toNat)
    match pyGet genes1 (node * (node_step p : Int)), pyGet genes2 (node * (node_step p : Int)) with
    | some g1, some g2 =>
      asymFold p genes1 genes2 rest (count + c + (if g1 ≠ g2 then 1 else 0))
    | _, _ => none

/-- `Individual.asym_phenotypic_difference(other)`: output-gene differences
plus, per node active in `self`, connection and function gene differences. -/
def asym_phenotypic_difference (p : Params) (genes1 active1 genes2 : List Int) : Option Nat :=
  asymFold p genes1 genes2 active1
    (diff_count (lastSlice genes1 p.output_length) (lastSlice genes2 p.output_length))

/-- The per-index loop of `Individual.mutate`: with decision `dec i`, replace
gene `i` by `random_gene(i, invalid := current value)`. -/
def mutateLoop (p : Params) (dec : Nat → Bool) (draws : Nat → List Nat) :
    List Nat → List Int → Option (List Int)
  | [], genes => some genes
  | i :: rest, genes =>
    if dec i then
      match genes[i]? with
      | none => none
      | some cur =>
        match random_gene p i (some cur) (draws i) with
        | none => none
        | some v => mutateLoop p dec draws rest (genes.set i v)
    else mutateLoop p dec draws rest genes

/-- `Individual.mutate(mutation_rate)`: clone (gene list copied, every other
field shared, fitness included), per-gene Bernoulli mutation, then
`determine_active_nodes` on the clone. -/
def Individual.mutate (ind : Individual) (dec : Nat → Bool) (draws : Nat → List Nat) :
    Option Individual :=
  (mutateLoop ind.params dec draws (List.range ind.genes.length) ind.genes).map
    (fun genes =>
      { ind with genes := genes, active := determine_active_nodes ind.params genes })

/-- The `while True` loop of `one_active_mutation`: pick a random index, draw a
fresh value for it; if it differs, write it, and stop only when the written
gene belongs to an output slot or to a node active in the parent. -/
def oamLoop (p : Params) (parentActive : List Int) :
    List (Nat × Nat) → List Int → Option (List Int)
  | [], _ => none
  | (di, dv) :: rest, genes =>
    if genes.length = 0 then none
    else
      let index := di % genes.length
      match random_gene p index none [dv] with
      | none => none
      | some newval =>
        if newval ≠ genes.getD index 0 then
          let genes2 := genes.set index newval
          if p.graph_length ≤ index / node_step p ∨
              ((index / node_step p : Nat) : Int) ∈ parentActive then some genes2
          else oamLoop p parentActive rest genes2
        else oamLoop p parentActive rest genes

/-- `Individual.one_active_mutation`: clone, run the loop, then
`determine_active_nodes` on the clone (fitness again shared). -/
def Individual.one_active_mutation (ind : Individual) (draws : List (Nat × Nat)) :
    Option Individual :=
  (oamLoop ind.params ind.active draws ind.genes).map
    (fun genes =>
      { ind with genes := genes, active := determine_active_nodes ind.params genes })

/-- Python `max(mutants)`: a left fold that keeps the current element unless a
later one is strictly greater (`Individual.__lt__` compares fitness), so the
first maximal element wins; `none` on the empty list. -/
def pymax : List Individual → Option Individual
  | [] => none
  | x :: xs => some (xs.foldl (fun b a => if b.fitness < a.fitness then a else b) x)

/-- The generation boundary of `generate`:
`best_child = max(mutants); if parent <= best_child: parent = best_child`. -/
def genStep (parent : Individual) (mutants : List Individual) : Option Individual :=
  (pymax mutants).map (fun best => if parent.fitness ≤ best.fitness then best else parent)

/-- The acyclicity invariant of the data model: every output gene lies in
`[-input_length, graph_length)` and every connection gene of node `i` lies in
`[-input_length, i)`.  Function genes are unconstrained. -/
def geneInvariant (p : Params) (genes : List Int) : Prop :=
  ∀ i, i < genes.length →
    (p.graph_length ≤ i / node_step p →
      -(p.input_length : Int) ≤ genes.getD i 0 ∧ genes.getD i 0 < (p.graph_length : Int)) ∧
    (i / node_step p < p.graph_length → i % node_step p ≠ 0 →
      -(p.input_length : Int) ≤ genes.getD i 0 ∧ genes.getD i 0 < ((i / node_step p : Nat) : Int))

instance (p : Params) (genes : List Int) : Decidable (geneInvariant p genes) := by
  unfold geneInvariant; infer_instance

/-- Backward reachability through connection genes from the code's seed
`genes[-output_length:]` (Python slicing, so the WHOLE gene list when
`output_length = 0`), restricted to traversal through nodes of index `≥ k`;
`Reachable p genes 0` is full backward reachability from that seed. -/
inductive Reachable (p : Params) (genes : List Int) (k : Nat) : Int → Prop
  | out {v : Int} : v ∈ lastSlice genes p.output_length → Reachable p genes k v
  | step {n : Nat} {v : Int} : Reachable p genes k (n : Int) → k ≤ n →
      n < p.graph_length → v ∈ connections p genes n → Reachable p genes k v

/-- The output genes of the data model: the final `output_length` entries of
the gene list — empty when `output_length = 0`, unlike Python's
`genes[-output_length:]`. -/
def output_genes (p : Params) (genes : List Int) : List Int :=
  genes.drop (genes.length - p.output_length)

/-- The refinement claim's reachability, following the spec's words: full
backward traversal from the output genes through connection genes. -/
inductive ReachableOut (p : Params) (genes : List Int) : Int → Prop
  | out {v : Int} : v ∈ output_genes p genes → ReachableOut p genes v
  | step {n : Nat} {v : Int} : ReachableOut p genes (n : Int) →
      n < p.graph_length → v ∈ connections p genes n → ReachableOut p genes v

/-- A gene index mutating which ends the `one_active_mutation` loop: an output
slot, or a node in the given active list. -/
def activeSlot (p : Params) (active : List Int) (index : Nat) : Prop :=
  p.graph_length ≤ index / node_step p ∨ ((index / node_step p : Nat) : Int) ∈ active

instance (p : Params) (active : List Int) (index : Nat) :
    Decidable (activeSlot p active index) := by
  unfold activeSlot; infer_instance

/-- The set of values `random_gene` is specified to draw from at a gene index:
the function list for a function gene, `[-input_length, node_number)` for a
connection gene, `[-input_length, graph_length)` for an output gene. -/
def legalValues (p : Params) (index : Nat) : Finset Int :=
  if p.graph_length ≤ index / node_step p then
    Finset.Ico (-(p.input_length : Int)) (p.graph_length : Int)
  else if index % node_step p = 0 then p.function_list.toFinset
  else Finset.Ico (-(p.input_length : Int)) ((index / node_step p : Nat) : Int)

/-- Interpretation of the single function used by the spec's concrete AND
scenario: `operator.and_` on integers (bitwise and). -/
def andF : Int → List Int → Int
  | _, [a, b] => Int.land a b
  | _, _ => 0

/-! ### Concrete parameter sets and individuals used by witnesses and
counterexamples -/

/-- Parameters: 2 nodes, 1 input, 1 output, arity 1, one function. -/
def p3 : Params := ⟨2, 1, 1, 1, [0]⟩

/-- Parameters of the spec's concrete AND scenario. -/
def p7 : Params := ⟨1, 2, 1, 2, [0]⟩

/-- Parameters with two functions, so that function genes can mutate. -/
def p1p : Params := ⟨2, 1, 1, 1, [0, 1]⟩

/-- A parent whose node 1 is inactive (output gene selects node 0). -/
def parent1 : Individual :=
  ⟨p1p, [0, -1, 0, -1, 0], determine_active_nodes p1p [0, -1, 0, -1, 0],
    List.replicate 3 none, unset_fitness⟩

/-- An already-scored individual over `p3` (fitness 7). -/
def ind5 : Individual :=
  ⟨p3, [0, -1, 0, -1, 0], determine_active_nodes p3 [0, -1, 0, -1, 0],
    List.replicate 3 none, 7⟩

/-- Two equally fit but distinct individuals, to exhibit tie-breaking. -/
def c4a : Individual := ⟨p3, [0, -1, 0, -1, 0], [0], List.replicate 3 none, 5⟩

/-- Second equally fit individual with different genes. -/
def c4b : Individual := ⟨p3, [0, -1, 0, -1, -1], [], List.replicate 3 none, 5⟩

/-- The mutant produced from `parent1` by a single accepted output-gene
change. -/
def m1w : Individual :=
  { parent1 with
    genes := [0, -1, 0, -1, 1],
    active := determine_active_nodes p1p [0, -1, 0, -1, 1] }

/-- The structural one-legal-value cases of `random_gene` named by the spec:
a function gene with a single-entry function list, or a connection/output gene
whose `node_number + input_length` equals 1. -/
def singleLegal (p : Params) (index : Nat) : Prop :=
  (p.graph_length ≤ index / node_step p ∧ p.graph_length + p.input_length = 1) ∨
  (index / node_step p < p.graph_length ∧ index % node_step p = 0 ∧
    p.function_list.length = 1) ∨
  (index / node_step p < p.graph_length ∧ index % node_step p ≠ 0 ∧
    index / node_step p + p.input_length = 1)

instance (p : Params) (index : Nat) : Decidable (singleLegal p index) := by
  unfold singleLegal; infer_instance

/-- Degenerate parameters with no inputs and arity 0 (used to refute the
unrestricted acyclicity claim). -/
def p6 : Params := ⟨1, 0, 1, 0, [0]⟩

/-- Degenerate parameters with no inputs (used to refute the unrestricted
`random_gene` claim at a connection gene with one legal value). -/
def p9c : Params := ⟨2, 0, 1, 1, [0]⟩

/-- Degenerate parameters with no outputs (used to refute the unrestricted
active-set refinement claim: `genes[-0:]` seeds the sweep with every gene). -/
def p2c : Params := ⟨1, 1, 0, 1, [0]⟩

/-- Degenerate parameters with no inputs (used to refute the unrestricted
evaluation-safety claim). -/
def p10c : Params := ⟨1, 0, 1, 0, [5]⟩

/-- The individual `mkIndividual p3 (fun _ => 0)` constructs. -/
def ind3c : Individual :=
  ⟨p3, [0, -1, 0, -1, -1], determine_active_nodes p3 [0, -1, 0, -1, -1],
    List.replicate 3 none, unset_fitness⟩

/-- Every gene list constructible under `p7`: the function gene is forced to
0, both connection genes lie in `{-2, -1}`, the output gene in
`{-2, -1, 0}`. -/
def genomes7 : List (List Int) :=
  [[0, -2, -2, -2], [0, -2, -2, -1], [0, -2, -2, 0],
   [0, -2, -1, -2], [0, -2, -1, -1], [0, -2, -1, 0],
   [0, -1, -2, -2], [0, -1, -2, -1], [0, -1, -2, 0],
   [0, -1, -1, -2], [0, -1, -1, -1], [0, -1, -1, 0]]

/-- Construction draws under `p7` that set the output gene to `-1` (wired
straight to input 0). -/
def draws7 : Nat → Nat := fun i => if i = 3 then 1 else 0

/-- The individual those draws construct: output reads input 0 directly,
bypassing the AND node. -/
def ind7c : Individual :=
  ⟨p7, [0, -2, -2, -1], determine_active_nodes p7 [0, -2, -2, -1],
    List.replicate 3 none, unset_fitness⟩

/-- A neutral variant of `parent1`: only the connection gene of the inactive
node 1 differs, so the asymmetric phenotypic difference is 0. -/
def mutant3a : Individual :=
  ⟨p1p, [0, -1, 0, 0, 0], determine_active_nodes p1p [0, -1, 0, 0, 0],
    List.replicate 3 none, unset_fitness⟩

/-! ### The selection scan (`max(mutants)`) -/

/-- Python's `max` keeps the running element unless a later one compares
strictly greater, so it returns an element of maximal fitness and, among
equally fit elements, the first one encountered. -/
lemma pymax_spec : ∀ (xs : List Individual) (x : Individual),
    ∃ best, pymax (x :: xs) = some best ∧
      (∀ y ∈ x :: xs, y.fitness ≤ best.fitness) ∧
      ∃ l1 l2, x :: xs = l1 ++ best :: l2 ∧ ∀ y ∈ l1, y.fitness < best.fitness := by
  intro xs
  induction xs with
  | nil =>
    intro x
    exact ⟨x, rfl, by simp, [], [], by simp, by simp⟩
  | cons a t ih =>
    intro x
    obtain ⟨best, hb, hmax, l1, l2, hdec, hlt⟩ := ih (if x.fitness < a.fitness then a else x)
    have hx'le : (if x.fitness < a.fitness then a else x).fitness ≤ best.fitness :=
      hmax _ (List.mem_cons_self _ _)
    refine ⟨best, hb, ?_, ?_⟩
    · intro y hy
      rcases List.mem_cons.mp hy with rfl | hy
      · by_cases hc : y.fitness < a.fitness
        · rw [if_pos hc] at hx'le
          exact le_trans (le_of_lt hc) hx'le
        · rwa [if_neg hc] at hx'le
      rcases List.mem_cons.mp hy with rfl | hy
      · by_cases hc : x.fitness < y.fitness
        · rwa [if_pos hc] at hx'le
        · rw [if_neg hc] at hx'le
          exact le_trans (not_lt.mp hc) hx'le
      · exact hmax y (List.mem_cons_of_mem _ hy)
    · by_cases hc : x.fitness < a.fitness
      · rw [if_pos hc] at hdec
        cases l1 with
        | nil =>
          simp only [List.nil_append, List.cons.injEq] at hdec
          obtain ⟨rfl, h2⟩ := hdec
          refine ⟨[x], l2, by simp [h2], ?_⟩
          intro y hy
          rw [List.mem_singleton] at hy
          subst hy
          exact hc
        | cons h t1 =>
          simp only [List.cons_append, List.cons.injEq] at hdec
          obtain ⟨rfl, hdec2⟩ := hdec
          refine ⟨x :: a :: t1, l2, by rw [hdec2]; simp, ?_⟩
          intro y hy
          rcases List.mem_cons.mp hy with rfl | hy
          · exact lt_trans hc (hlt _ (List.mem_cons_self _ _))
          rcases List.mem_cons.mp hy with rfl | hy
          · exact hlt _ (List.mem_cons_self _ _)
          · exact hlt _ (List.mem_cons_of_mem _ hy)
      · rw [if_neg hc] at hdec
        cases l1 with
        | nil =>
          simp only [List.nil_append, List.cons.injEq] at hdec
          obtain ⟨rfl, h2⟩ := hdec
          exact ⟨[], a :: t, by simp, by simp⟩
        | cons h t1 =>
          simp only [List.cons_append, List.cons.injEq] at hdec
          obtain ⟨rfl, hdec2⟩ := hdec
          refine ⟨x :: a :: t1, l2, by rw [hdec2]; simp, ?_⟩
          intro y hy
          rcases List.mem_cons.mp hy with rfl | hy
          · exact hlt _ (List.mem_cons_self _ _)
          rcases List.mem_cons.mp hy with rfl | hy
          · exact lt_of_le_of_lt (not_lt.mp hc) (hlt _ (List.mem_cons_self _ _))
          · exact hlt _ (List.mem_cons_of_mem _ hy)

/-- C4, counterexample: on two equally fit mutants `max` selects the FIRST one
(`c4a`), not the one encountered last (`c4b`), refuting the claimed last-wins
tie-break. -/
theorem c4_counterexample :
    pymax [c4a, c4b] = some c4a ∧ c4b.fitness = c4a.fitness ∧ c4a ≠ c4b := by
  refine ⟨by decide, by decide, by decide⟩

/-- C4 (amended): `best_child = max(mutants)` has maximal fitness among the
offspring, and among equally maximal offspring the FIRST one encountered (in
slot order) is selected: the list splits as `l1 ++ best :: l2` with every
element of `l1` strictly less fit. -/
theorem c4_best_child (mutants : List Individual) (x : Individual) (xs : List Individual)
    (h : mutants = x :: xs) :
    ∃ best, pymax mutants = some best ∧
      (∀ y ∈ mutants, y.fitness ≤ best.fitness) ∧
      ∃ l1 l2, mutants = l1 ++ best :: l2 ∧ ∀ y ∈ l1, y.fitness < best.fitness := by
  subst h
  exact pymax_spec xs x

/-- C4 witness: the theorem applied to the concrete offspring list
`[c4a, c4b]`. -/
theorem c4_witness :
    ∃ best, pymax [c4a, c4b] = some best ∧
      (∀ y ∈ [c4a, c4b], y.fitness ≤ best.fitness) ∧
      ∃ l1 l2, [c4a, c4b] = l1 ++ best :: l2 ∧ ∀ y ∈ l1, y.fitness < best.fitness :=
  c4_best_child [c4a, c4b] c4a [c4b] rfl

/-- C8: at a generation boundary the parent is replaced by `best_child`
exactly when `parent <= best_child` on fitness (so equal fitness triggers
replacement), and the new parent's fitness is at least the old parent's and at
least every offspring's. -/
theorem c8_generation_step (parent : Individual) (mutants : List Individual)
    (x : Individual) (xs : List Individual) (h : mutants = x :: xs) :
    ∃ best np, pymax mutants = some best ∧ genStep parent mutants = some np ∧
      (parent.fitness ≤ best.fitness → np = best) ∧
      (best.fitness < parent.fitness → np = parent) ∧
      parent.fitness ≤ np.fitness ∧ ∀ y ∈ mutants, y.fitness ≤ np.fitness := by
  subst h
  obtain ⟨best, hb, hmax, -⟩ := pymax_spec xs x
  by_cases hc : parent.fitness ≤ best.fitness
  · refine ⟨best, best, hb, ?_, fun _ => rfl, ?_, hc, hmax⟩
    · simp [genStep, hb, hc]
    · intro hlt
      exact absurd hc (not_le.mpr hlt)
  · refine ⟨best, parent, hb, ?_, fun hle => absurd hle hc, fun _ => rfl, le_refl _, ?_⟩
    · simp [genStep, hb, hc]
    · intro y hy
      exact le_trans (hmax y hy) (le_of_lt (not_le.mp hc))

/-- C8 witness: the theorem applied to a concrete parent and offspring list
(the parent `ind5` of fitness 7 is replaced by the equally fit `c4a`-variant
if fitter, kept otherwise; here the hypotheses are discharged on
`[c4a, c4b]`). -/
theorem c8_witness :
    ∃ best np, pymax [c4a, c4b] = some best ∧ genStep ind5 [c4a, c4b] = some np ∧
      (ind5.fitness ≤ best.fitness → np = best) ∧
      (best.fitness < ind5.fitness → np = ind5) ∧
      ind5.fitness ≤ np.fitness ∧ ∀ y ∈ [c4a, c4b], y.fitness ≤ np.fitness :=
  c8_generation_step ind5 [c4a, c4b] c4a [c4b] rfl

/-! ### Clone-with-mutated-genes semantics (C5) and the Single mutation (C1) -/

/-- The per-gene mutation loop never changes the length of the gene list. -/
lemma mutateLoop_length (p : Params) (dec : Nat → Bool) (draws : Nat → List Nat) :
    ∀ (idxs : List Nat) (genes genes' : List Int),
      mutateLoop p dec draws idxs genes = some genes' → genes'.length = genes.length := by
  intro idxs
  induction idxs with
  | nil =>
    intro genes genes' h
    simp only [mutateLoop, Option.some.injEq] at h
    rw [← h]
  | cons i rest ih =>
    intro genes genes' h
    simp only [mutateLoop] at h
    split at h
    · split at h
      · exact absurd h (by simp)
      · split at h
        · exact absurd h (by simp)
        · have hl := ih _ _ h
          rw [hl, List.length_set]
    · exact ih _ _ h

/-- The `one_active_mutation` loop never changes the length of the gene
list. -/
lemma oamLoop_length (p : Params) (parentActive : List Int) :
    ∀ (draws : List (Nat × Nat)) (genes genes' : List Int),
      oamLoop p parentActive draws genes = some genes' → genes'.length = genes.length := by
  intro draws
  induction draws with
  | nil =>
    intro genes genes' h
    exact absurd h (by simp [oamLoop])
  | cons d rest ih =>
    intro genes genes' h
    obtain ⟨di, dv⟩ := d
    simp only [oamLoop] at h
    split at h
    · exact absurd h (by simp)
    · split at h
      · exact absurd h (by simp)
      · split at h
        · split at h
          · simp only [Option.some.injEq] at h
            rw [← h, List.length_set]
          · have hl := ih _ _ h
            rw [hl, List.length_set]
        · exact ih _ _ h

/-- C5, counterexample: a mutation that flips no gene returns a clone whose
fitness is the parent's scored value 7, not the unset sentinel — the clone
INHERITS fitness instead of having it reset. -/
theorem c5_counterexample :
    (ind5.mutate (fun _ => false) (fun _ => [])).map Individual.fitness = some 7 ∧
    (7 : Int) ≠ unset_fitness := by
  exact ⟨by decide, by decide⟩

/-- C5 (amended): a clone produced by `mutate` or `one_active_mutation` shares
every field of the source except the gene list (same length, possibly changed
values), its active set is recomputed from its own genes before it is
returned, and its fitness is INHERITED from the source (the code never resets
it to the unset sentinel). -/
theorem c5_clone_semantics (ind : Individual) :
    (∀ dec draws m, ind.mutate dec draws = some m →
      m.params = ind.params ∧ m.scratch = ind.scratch ∧ m.fitness = ind.fitness ∧
      m.active = determine_active_nodes ind.params m.genes ∧
      m.genes.length = ind.genes.length) ∧
    (∀ draws m, ind.one_active_mutation draws = some m →
      m.params = ind.params ∧ m.scratch = ind.scratch ∧ m.fitness = ind.fitness ∧
      m.active = determine_active_nodes ind.params m.genes ∧
      m.genes.length = ind.genes.length) := by
  constructor
  · intro dec draws m h
    obtain ⟨genes', hg, rfl⟩ := Option.map_eq_some'.mp h
    exact ⟨rfl, rfl, rfl, rfl, mutateLoop_length _ _ _ _ _ _ hg⟩
  · intro draws m h
    obtain ⟨genes', hg, rfl⟩ := Option.map_eq_some'.mp h
    exact ⟨rfl, rfl, rfl, rfl, oamLoop_length _ _ _ _ _ hg⟩

/-- C5 witness: the amended theorem applied to the scored individual `ind5`
and a no-flip mutation (which maps `ind5` to itself). -/
theorem c5_witness :
    ind5.params = ind5.params ∧ ind5.scratch = ind5.scratch ∧
    ind5.fitness = ind5.fitness ∧
    ind5.active = determine_active_nodes ind5.params ind5.genes ∧
    ind5.genes.length = ind5.genes.length :=
  (c5_clone_semantics ind5).1 (fun _ => false) (fun _ => []) ind5 (by decide)

/-- Core of C1: if the `one_active_mutation` loop returns, the result differs
from the starting genes in at least one position; exactly one differing
position is an output slot or a node of the given active list (the one whose
change ended the loop), and every other differing position is an inactive,
non-output node gene. -/
lemma oamLoop_spec (p : Params) (parentActive : List Int) (parentGenes : List Int) :
    ∀ (draws : List (Nat × Nat)) (genes genes' : List Int),
      genes.length = parentGenes.length →
      (∀ j, j < parentGenes.length → genes.getD j 0 ≠ parentGenes.getD j 0 →
        ¬ activeSlot p parentActive j) →
      oamLoop p parentActive draws genes = some genes' →
      genes'.length = parentGenes.length ∧
      ∃ i, i < parentGenes.length ∧ genes'.getD i 0 ≠ parentGenes.getD i 0 ∧
        activeSlot p parentActive i ∧
        ∀ j, j < parentGenes.length → j ≠ i → genes'.getD j 0 ≠ parentGenes.getD j 0 →
          ¬ activeSlot p parentActive j := by
  intro draws
  induction draws with
  | nil =>
    intro genes genes' _ _ h
    exact absurd h (by simp [oamLoop])
  | cons d rest ih =>
    intro genes genes' hlen hinv h
    obtain ⟨di, dv⟩ := d
    simp only [oamLoop] at h
    split at h
    · exact absurd h (by simp)
    · next hne0 =>
      set index := di % genes.length with hidx
      have hindex : index < parentGenes.length := by
        rw [← hlen]
        exact Nat.mod_lt _ (Nat.pos_of_ne_zero hne0)
      split at h
      · exact absurd h (by simp)
      · next newval hnv =>
        split at h
        · next hdiff =>
          have hcur : genes.getD index 0 = parentGenes.getD index 0 ∨
              ¬ activeSlot p parentActive index := by
            by_cases hc : genes.getD index 0 = parentGenes.getD index 0
            · exact Or.inl hc
            · exact Or.inr (hinv index hindex hc)
          have hset_at : (genes.set index newval).getD index 0 = newval := by
            rw [List.getD_eq_getElem?_getD, List.getElem?_set_self (by rw [hlen]; exact hindex)]
            rfl
          have hset_ne : ∀ j, j ≠ index → (genes.set index newval).getD j 0 = genes.getD j 0 := by
            intro j hj
            rw [List.getD_eq_getElem?_getD, List.getElem?_set_ne (fun hh => hj hh.symm),
              ← List.getD_eq_getElem?_getD]
          split at h
          · next hact =>
            simp only [Option.some.injEq] at h
            subst h
            have hactive : activeSlot p parentActive index := hact
            have hold : genes.getD index 0 = parentGenes.getD index 0 := by
              rcases hcur with hc | hc
              · exact hc
              · exact absurd hactive hc
            refine ⟨by rw [List.length_set, hlen], index, hindex, ?_, hactive, ?_⟩
            · rw [hset_at, ← hold]
              exact hdiff
            · intro j hjlen hji hjdiff
              rw [hset_ne j hji] at hjdiff
              exact hinv j hjlen hjdiff
          · next hact =>
            refine ih _ _ (by rw [List.length_set, hlen]) ?_ h
            intro j hjlen hjdiff
            by_cases hji : j = index
            · subst hji
              exact hact
            · rw [hset_ne j hji] at hjdiff
              exact hinv j hjlen hjdiff
        · exact ih _ _ hlen hinv h

/-- C1, counterexample: starting from `parent1` (whose node 1 is inactive),
the draw sequence first flips the inactive node-1 connection gene and then an
output gene; the loop accepts, and the returned mutant differs from the
parent in TWO gene positions, refuting "differs in exactly one gene". -/
theorem c1_counterexample :
    (parent1.one_active_mutation [(3, 1), (4, 2)]).map
      (fun m => diff_count m.genes parent1.genes) = some 2 ∧ (2 : Nat) ≠ 1 := by
  exact ⟨by decide, by decide⟩

/-- C1 (amended): a mutant returned by `one_active_mutation` differs from the
parent in at least one gene; exactly one differing gene belongs to an output
slot or to a node of the parent's pre-mutation active set (the change that
ended the loop), and every other differing gene belongs to a node outside the
pre-mutation active set. -/
theorem c1_single_active_mutation (ind : Individual) (draws : List (Nat × Nat))
    (m : Individual) (h : ind.one_active_mutation draws = some m) :
    m.genes.length = ind.genes.length ∧
    ∃ i, i < ind.genes.length ∧ m.genes.getD i 0 ≠ ind.genes.getD i 0 ∧
      activeSlot ind.params ind.active i ∧
      ∀ j, j < ind.genes.length → j ≠ i → m.genes.getD j 0 ≠ ind.genes.getD j 0 →
        ¬ activeSlot ind.params ind.active j := by
  obtain ⟨genes', hg, rfl⟩ := Option.map_eq_some'.mp h
  exact oamLoop_spec ind.params ind.active ind.genes draws ind.genes genes' rfl
    (fun j _ hj => absurd rfl hj) hg

/-- C1 witness: the amended theorem applied to `parent1` with a draw that
immediately hits the output gene. -/
theorem c1_witness :
    m1w.genes.length = parent1.genes.length ∧
    ∃ i, i < parent1.genes.length ∧ m1w.genes.getD i 0 ≠ parent1.genes.getD i 0 ∧
      activeSlot parent1.params parent1.active i ∧
      ∀ j, j < parent1.genes.length → j ≠ i →
        m1w.genes.getD j 0 ≠ parent1.genes.getD j 0 →
        ¬ activeSlot parent1.params parent1.active j :=
  c1_single_active_mutation parent1 [(4, 2)] m1w (by decide)

/-! ### `random_gene` semantics (C9) and the acyclicity invariant (C6) -/

/-- A value returned by the resampling loop is one of the generated values and
differs from `invalid`. -/
lemma sampleLoop_some (gen : Nat → Int) (invalid : Option Int) :
    ∀ draws v, sampleLoop gen invalid draws = some v →
      (∃ d, v = gen d) ∧ some v ≠ invalid := by
  intro draws
  induction draws with
  | nil =>
    intro v h
    exact absurd h (by simp [sampleLoop])
  | cons d ds ih =>
    intro v h
    simp only [sampleLoop] at h
    split at h
    · next hcond =>
      simp only [Option.some.injEq] at h
      subst h
      exact ⟨⟨d, rfl⟩, hcond⟩
    · exact ih v h

/-- A single draw whose value is not `invalid` is returned immediately. -/
lemma sampleLoop_one (gen : Nat → Int) (invalid : Option Int) (d : Nat)
    (h : some (gen d) ≠ invalid) : sampleLoop gen invalid [d] = some (gen d) := by
  simp only [sampleLoop]
  rw [if_pos h]

/-- Any value returned by the connection branch lies in
`[-input_length, node_number)` (uses `input_length ≥ 1`). -/
lemma connDraw_some (p : Params) (n : Nat) (invalid : Option Int) (draws : List Nat)
    (v : Int) (hil : 1 ≤ p.input_length) (h : connDraw p n invalid draws = some v) :
    -(p.input_length : Int) ≤ v ∧ v < (n : Int) := by
  unfold connDraw at h
  split at h
  · next h1 =>
    simp only [Option.some.injEq] at h
    subst h
    constructor <;> omega
  · split at h
    · exact absurd h (by simp)
    · next h1 h2 =>
      obtain ⟨⟨d, rfl⟩, -⟩ := sampleLoop_some _ _ _ _ h
      have hm : d % (n + p.input_length) < n + p.input_length := Nat.mod_lt _ (by omega)
      constructor <;> omega

/-- When the connection range has at least two values, the loop branch runs
and its result differs from `invalid`. -/
lemma connDraw_ne (p : Params) (n : Nat) (invalid : Option Int) (draws : List Nat)
    (v : Int) (hcard : 2 ≤ n + p.input_length) (h : connDraw p n invalid draws = some v) :
    some v ≠ invalid := by
  unfold connDraw at h
  rw [if_neg (by omega), if_neg (by omega)] at h
  exact (sampleLoop_some _ _ _ _ h).2

/-- Gene-position bounds for every value `random_gene` can return: output
genes lie in `[-input_length, graph_length)`, connection genes of node
`index / node_step` lie in `[-input_length, node)`. -/
lemma random_gene_bounds (p : Params) (hil : 1 ≤ p.input_length) (index : Nat)
    (invalid : Option Int) (draws : List Nat) (v : Int)
    (h : random_gene p index invalid draws = some v) :
    (p.graph_length ≤ index / node_step p →
      -(p.input_length : Int) ≤ v ∧ v < (p.graph_length : Int)) ∧
    (index / node_step p < p.graph_length → index % node_step p ≠ 0 →
      -(p.input_length : Int) ≤ v ∧ v < ((index / node_step p : Nat) : Int)) := by
  unfold random_gene at h
  split at h
  · next hout =>
    exact ⟨fun _ => connDraw_some p _ _ _ _ hil h,
      fun hlt _ => absurd hout (not_le.mpr hlt)⟩
  · next hout =>
    split at h
    · next hfn =>
      exact ⟨fun hge => absurd hge hout, fun _ hne => absurd hfn hne⟩
    · next hfn =>
      exact ⟨fun hge => absurd hge hout, fun _ _ => connDraw_some p _ _ _ _ hil h⟩

/-- Setting a gene to a fresh `random_gene` value preserves the acyclicity
invariant. -/
lemma geneInvariant_update (p : Params) (hil : 1 ≤ p.input_length) (genes : List Int)
    (hg : geneInvariant p genes) (i : Nat) (invalid : Option Int)
    (draws : List Nat) (v : Int) (hv : random_gene p i invalid draws = some v) :
    geneInvariant p (genes.set i v) := by
  have hb := random_gene_bounds p hil i invalid draws v hv
  intro j hj
  rw [List.length_set] at hj
  by_cases hji : j = i
  · subst hji
    have hset : (genes.set j v).getD j 0 = v := by
      rw [List.getD_eq_getElem?_getD, List.getElem?_set_self hj]
      rfl
    rw [hset]
    exact hb
  · have hset : (genes.set i v).getD j 0 = genes.getD j 0 := by
      rw [List.getD_eq_getElem?_getD, List.getElem?_set_ne (fun hh => hji hh.symm),
        ← List.getD_eq_getElem?_getD]
    rw [hset]
    exact hg j hj

/-- Characterization of the gene list built by the constructor: it has the
requested length and each position holds the value of its own
`random_gene` call. -/
lemma initGenes_spec (p : Params) (draws : Nat → Nat) :
    ∀ n l, initGenes p draws n = some l →
      l.length = n ∧ ∀ i, i < n → random_gene p i none [draws i] = some (l.getD i 0) := by
  intro n
  induction n with
  | zero =>
    intro l h
    simp only [initGenes, Option.some.injEq] at h
    subst h
    exact ⟨rfl, by omega⟩
  | succ n ih =>
    intro l h
    simp only [initGenes] at h
    split at h
    · next l' v hl hv =>
      simp only [Option.some.injEq] at h
      subst h
      obtain ⟨hlen, hall⟩ := ih l' hl
      refine ⟨by simp [hlen], ?_⟩
      intro i hi
      rcases Nat.lt_succ_iff_lt_or_eq.mp hi with hlt | rfl
      · rw [List.getD_append _ _ _ _ (by rw [hlen]; exact hlt)]
        exact hall i hlt
      · rw [List.getD_append_right _ _ _ _ (le_of_eq hlen), hlen, Nat.sub_self]
        exact hv
    · exact absurd h (by simp)

/-- The acyclicity invariant holds for a freshly constructed gene list. -/
lemma initGenes_invariant (p : Params) (hil : 1 ≤ p.input_length) (draws : Nat → Nat)
    (n : Nat) (l : List Int) (h : initGenes p draws n = some l) : geneInvariant p l := by
  obtain ⟨hlen, hall⟩ := initGenes_spec p draws n l h
  intro i hi
  rw [hlen] at hi
  exact random_gene_bounds p hil i none [draws i] _ (hall i hi)

/-- The per-gene mutation loop preserves the acyclicity invariant. -/
lemma mutateLoop_invariant (p : Params) (hil : 1 ≤ p.input_length) (dec : Nat → Bool)
    (draws : Nat → List Nat) :
    ∀ (idxs : List Nat) (genes genes' : List Int), geneInvariant p genes →
      mutateLoop p dec draws idxs genes = some genes' → geneInvariant p genes' := by
  intro idxs
  induction idxs with
  | nil =>
    intro genes genes' hg h
    simp only [mutateLoop, Option.some.injEq] at h
    subst h
    exact hg
  | cons i rest ih =>
    intro genes genes' hg h
    simp only [mutateLoop] at h
    split at h
    · split at h
      · exact absurd h (by simp)
      · split at h
        · exact absurd h (by simp)
        · next v hv =>
          exact ih _ _ (geneInvariant_update p hil genes hg i _ _ v hv) h
    · exact ih _ _ hg h

/-- The `one_active_mutation` loop preserves the acyclicity invariant. -/
lemma oamLoop_invariant (p : Params) (hil : 1 ≤ p.input_length) (parentActive : List Int) :
    ∀ (draws : List (Nat × Nat)) (genes genes' : List Int), geneInvariant p genes →
      oamLoop p parentActive draws genes = some genes' → geneInvariant p genes' := by
  intro draws
  induction draws with
  | nil =>
    intro genes genes' _ h
    exact absurd h (by simp [oamLoop])
  | cons d rest ih =>
    intro genes genes' hg h
    obtain ⟨di, dv⟩ := d
    simp only [oamLoop] at h
    split at h
    · exact absurd h (by simp)
    · split at h
      · exact absurd h (by simp)
      · next newval hnv =>
        split at h
        · split at h
          · simp only [Option.some.injEq] at h
            subst h
            exact geneInvariant_update p hil genes hg _ _ _ newval hnv
          · exact ih _ _ (geneInvariant_update p hil genes hg _ _ _ newval hnv) h
        · exact ih _ _ hg h

/-- C6, counterexample: with `input_length = 0` (and `max_arity = 0`) the
constructor's `node_number + input_length == 1` shortcut returns `-1` for the
output gene, which violates the claimed bound `-input_length <= v`. -/
theorem c6_counterexample :
    (mkIndividual p6 (fun _ => 0)).map Individual.genes = some [0, -1] ∧
    ¬ geneInvariant p6 [0, -1] := by
  exact ⟨by decide, by decide⟩

/-- C6 (amended): for parameters with `input_length ≥ 1`, every individual
satisfies the acyclicity invariant after construction, and both `mutate` and
`one_active_mutation` preserve it: connection genes of node `i` lie in
`[-input_length, i)` and output genes in `[-input_length, graph_length)`. -/
theorem c6_acyclicity (p : Params) (hil : 1 ≤ p.input_length) :
    (∀ draws ind, mkIndividual p draws = some ind → geneInvariant p ind.genes) ∧
    (∀ ind : Individual, ind.params = p → geneInvariant p ind.genes →
      ∀ dec draws m, ind.mutate dec draws = some m → geneInvariant p m.genes) ∧
    (∀ ind : Individual, ind.params = p → geneInvariant p ind.genes →
      ∀ draws m, ind.one_active_mutation draws = some m → geneInvariant p m.genes) := by
  refine ⟨?_, ?_, ?_⟩
  · intro draws ind h
    obtain ⟨genes, hg, rfl⟩ := Option.map_eq_some'.mp h
    exact initGenes_invariant p hil draws _ genes hg
  · intro ind hp hg dec draws m h
    obtain ⟨genes', hg', rfl⟩ := Option.map_eq_some'.mp h
    subst hp
    exact mutateLoop_invariant _ hil dec draws _ _ _ hg hg'
  · intro ind hp hg draws m h
    obtain ⟨genes', hg', rfl⟩ := Option.map_eq_some'.mp h
    subst hp
    exact oamLoop_invariant _ hil _ draws _ _ hg hg'

/-- C6 witness: the construction clause applied to `p3` and the all-zero
draw function, which builds `ind3c`. -/
theorem c6_witness : geneInvariant p3 ind3c.genes :=
  (c6_acyclicity p3 (by decide)).1 (fun _ => 0) ind3c (by decide)

/-- Avoidance semantics of the connection branch, stated against its legal
range `Ico (-input_length) node_number`: returned values are legal and avoid
`a` when the range has at least two values; a range of exactly one value is
returned immediately for every draw list, including the empty one. -/
lemma connDraw_avoid (p : Params) (n : Nat) (a : Int) (hil : 1 ≤ p.input_length) :
    (∀ draws v, connDraw p n (some a) draws = some v →
      v ∈ Finset.Ico (-(p.input_length : Int)) (n : Int) ∧
      (1 < (Finset.Ico (-(p.input_length : Int)) (n : Int)).card → v ≠ a)) ∧
    (1 < (Finset.Ico (-(p.input_length : Int)) (n : Int)).card →
      ∃ d v, connDraw p n (some a) [d] = some v ∧
        v ∈ Finset.Ico (-(p.input_length : Int)) (n : Int) ∧ v ≠ a) ∧
    (n + p.input_length = 1 →
      ∃ v, Finset.Ico (-(p.input_length : Int)) (n : Int) = {v} ∧
        ∀ draws, connDraw p n (some a) draws = some v) := by
  have hcard : (Finset.Ico (-(p.input_length : Int)) (n : Int)).card = n + p.input_length := by
    rw [Int.card_Ico]
    omega
  refine ⟨?_, ?_, ?_⟩
  · intro draws v h
    refine ⟨Finset.mem_Ico.mpr (connDraw_some p n _ draws v hil h), ?_⟩
    intro hc
    rw [hcard] at hc
    intro hva
    exact connDraw_ne p n _ draws v (by omega) h (by rw [hva])
  · intro hc
    rw [hcard] at hc
    obtain ⟨b, hb, hba⟩ := Finset.exists_ne_of_one_lt_card (by rw [hcard]; exact hc) a
    obtain ⟨hb1, hb2⟩ := Finset.mem_Ico.mp hb
    refine ⟨(b + p.input_length).toNat, b, ?_, hb, hba⟩
    have hdlt : (b + p.input_length).toNat < n + p.input_length := by omega
    have hgen : -(p.input_length : Int) +
        (((b + p.input_length).toNat % (n + p.input_length) : Nat) : Int) = b := by
      rw [Nat.mod_eq_of_lt hdlt]
      omega
    unfold connDraw
    rw [if_neg (by omega), if_neg (by omega)]
    simp only [sampleLoop, hgen]
    rw [if_pos (by simpa using hba)]
  · intro h1
    have hn : n = 0 := by omega
    have hi1 : p.input_length = 1 := by omega
    subst hn
    refine ⟨-1, ?_, ?_⟩
    · rw [hi1]
      decide
    · intro draws
      unfold connDraw
      rw [if_pos h1]

/-- C9, counterexample: with `input_length = 0`, a connection gene whose
`node_number + input_length` equals 1 has the one-element legal range `{0}`
(`randrange(-0, 1)`), yet `random_gene` returns `-1`, so the single legal
value is NOT what the call returns. -/
theorem c9_counterexample :
    random_gene p9c 3 (some 5) [] = some (-1) ∧ (legalValues p9c 3).card = 1 ∧
    (-1 : Int) ∉ legalValues p9c 3 := by
  refine ⟨by decide, by decide, by decide⟩

/-- C9 (amended): for `input_length ≥ 1`: whenever the legal value set of a
gene has more than one element, every value `random_gene(index, avoid)`
returns is legal and differs from `avoid`, and some single draw already
returns such a value; in the spec's one-legal-value cases (single-entry
function list, or `node_number + input_length == 1`) the single legal value is
returned for EVERY draw list — even the empty one, so the call terminates
without resampling — even when it equals `avoid`. -/
theorem c9_random_gene_avoid (p : Params) (index : Nat) (a : Int)
    (hil : 1 ≤ p.input_length) :
    (∀ draws v, random_gene p index (some a) draws = some v →
      v ∈ legalValues p index ∧ (1 < (legalValues p index).card → v ≠ a)) ∧
    (1 < (legalValues p index).card →
      ∃ d v, random_gene p index (some a) [d] = some v ∧
        v ∈ legalValues p index ∧ v ≠ a) ∧
    (singleLegal p index →
      ∃ v, legalValues p index = {v} ∧
        ∀ draws, random_gene p index (some a) draws = some v) := by
  by_cases hout : p.graph_length ≤ index / node_step p
  · have hS : legalValues p index =
        Finset.Ico (-(p.input_length : Int)) (p.graph_length : Int) := by
      unfold legalValues
      rw [if_pos hout]
    have hrg : ∀ (draws : List Nat),
        random_gene p index (some a) draws = connDraw p p.graph_length (some a) draws := by
      intro draws
      unfold random_gene
      rw [if_pos hout]
    obtain ⟨hc1, hc2, hc3⟩ := connDraw_avoid p p.graph_length a hil
    refine ⟨?_, ?_, ?_⟩
    · intro draws v h
      rw [hrg] at h
      rw [hS]
      exact hc1 draws v h
    · intro hcard
      rw [hS] at hcard
      obtain ⟨d, v, hd, hv, hva⟩ := hc2 hcard
      refine ⟨d, v, ?_, ?_, hva⟩
      · rw [hrg]
        exact hd
      · rw [hS]
        exact hv
    · intro hsl
      rcases hsl with ⟨-, h1⟩ | ⟨hlt, -⟩ | ⟨hlt, -⟩
      · obtain ⟨v, hv1, hv2⟩ := hc3 h1
        refine ⟨v, by rw [hS]; exact hv1, ?_⟩
        intro draws
        rw [hrg]
        exact hv2 draws
      · exact absurd hout (not_le.mpr hlt)
      · exact absurd hout (not_le.mpr hlt)
  · have hlt : index / node_step p < p.graph_length := not_le.mp hout
    by_cases hfn : index % node_step p = 0
    · have hS : legalValues p index = p.function_list.toFinset := by
        unfold legalValues
        rw [if_neg hout, if_pos hfn]
      have hrg : ∀ (draws : List Nat), random_gene p index (some a) draws =
          (if p.function_list.length = 1 then some (p.function_list.getD 0 0)
           else if p.function_list.length = 0 then none
           else sampleLoop (fun d => p.function_list.getD (d % p.function_list.length) 0)
             (some a) draws) := by
        intro draws
        unfold random_gene
        rw [if_neg hout, if_pos hfn]
      refine ⟨?_, ?_, ?_⟩
      · intro draws v h
        rw [hrg] at h
        rw [hS]
        split at h
        · next h1 =>
          simp only [Option.some.injEq] at h
          subst h
          have hmem : p.function_list.getD 0 0 ∈ p.function_list := by
            have h0 : 0 < p.function_list.length := by omega
            rw [List.getD_eq_getElem?_getD, List.getElem?_eq_getElem h0]
            exact List.getElem_mem _
          refine ⟨List.mem_toFinset.mpr hmem, ?_⟩
          intro hc
          have hle := List.toFinset_card_le p.function_list
          exact absurd hc (by omega)
        · split at h
          · exact absurd h (by simp)
          · next h1 h0 =>
            obtain ⟨⟨d, rfl⟩, hne⟩ := sampleLoop_some _ _ _ _ h
            have hdm : d % p.function_list.length < p.function_list.length :=
              Nat.mod_lt _ (by omega)
            have hmem : p.function_list.getD (d % p.function_list.length) 0 ∈
                p.function_list := by
              rw [List.getD_eq_getElem?_getD, List.getElem?_eq_getElem hdm]
              exact List.getElem_mem _
            exact ⟨List.mem_toFinset.mpr hmem, fun _ hva => hne (by rw [hva])⟩
      · intro hcard
        rw [hS] at hcard
        have hle := List.toFinset_card_le p.function_list
        have hlen1 : p.function_list.length ≠ 1 := by omega
        have hlen0 : p.function_list.length ≠ 0 := by omega
        obtain ⟨b, hb, hba⟩ := Finset.exists_ne_of_one_lt_card hcard a
        obtain ⟨k, hk⟩ := List.mem_iff_getElem?.mp (List.mem_toFinset.mp hb)
        obtain ⟨hklt, hkb⟩ := List.getElem?_eq_some.mp hk
        have hgen : p.function_list.getD (k % p.function_list.length) 0 = b := by
          rw [Nat.mod_eq_of_lt hklt, List.getD_eq_getElem?_getD,
            List.getElem?_eq_getElem hklt]
          exact hkb
        refine ⟨k, b, ?_, by rw [hS]; exact hb, hba⟩
        rw [hrg, if_neg hlen1, if_neg hlen0]
        simp only [sampleLoop, hgen]
        rw [if_pos (by simpa using hba)]
      · intro hsl
        rcases hsl with ⟨hge, -⟩ | ⟨-, -, hlen1⟩ | ⟨-, hne, -⟩
        · exact absurd hge hout
        · have hx : ∃ x, p.function_list = [x] := by
            cases hfl : p.function_list with
            | nil => rw [hfl] at hlen1; simp at hlen1
            | cons x t =>
              cases t with
              | nil => exact ⟨x, rfl⟩
              | cons y s => rw [hfl] at hlen1; simp at hlen1
          obtain ⟨x, hx⟩ := hx
          refine ⟨x, ?_, ?_⟩
          · rw [hS, hx]
            simp
          · intro draws
            rw [hrg, hx]
            simp
        · exact absurd hfn hne
    · have hS : legalValues p index =
          Finset.Ico (-(p.input_length : Int)) ((index / node_step p : Nat) : Int) := by
        unfold legalValues
        rw [if_neg hout, if_neg hfn]
      have hrg : ∀ (draws : List Nat), random_gene p index (some a) draws =
          connDraw p (index / node_step p) (some a) draws := by
        intro draws
        unfold random_gene
        rw [if_neg hout, if_neg hfn]
      obtain ⟨hc1, hc2, hc3⟩ := connDraw_avoid p (index / node_step p) a hil
      refine ⟨?_, ?_, ?_⟩
      · intro draws v h
        rw [hrg] at h
        rw [hS]
        exact hc1 draws v h
      · intro hcard
        rw [hS] at hcard
        obtain ⟨d, v, hd, hv, hva⟩ := hc2 hcard
        refine ⟨d, v, ?_, by rw [hS]; exact hv, hva⟩
        rw [hrg]
        exact hd
      · intro hsl
        rcases hsl with ⟨hge, -⟩ | ⟨-, hz, -⟩ | ⟨-, -, h1⟩
        · exact absurd hge hout
        · exact absurd hz hfn
        · obtain ⟨v, hv1, hv2⟩ := hc3 h1
          refine ⟨v, by rw [hS]; exact hv1, ?_⟩
          intro draws
          rw [hrg]
          exact hv2 draws

/-- C9 witness: the amended theorem applied to the output gene of `p3`, whose
legal range `[-1, 2)` has three values; avoiding 0 succeeds with a legal
value different from 0. -/
theorem c9_witness :
    ∃ d v, random_gene p3 4 (some 0) [d] = some v ∧ v ∈ legalValues p3 4 ∧ v ≠ 0 :=
  (c9_random_gene_avoid p3 4 0 (by decide)).2.1 (by decide)

/-! ### Refinement of `determine_active_nodes` by backward reachability (C2) -/

/-- Membership after set-inserting a whole list of values. -/
lemma mem_insertAll (conns : List Int) :
    ∀ (acc : List Int) (v : Int),
      v ∈ conns.foldl (fun a c => a.insert c) acc ↔ v ∈ acc ∨ v ∈ conns := by
  induction conns with
  | nil => simp
  | cons c cs ih =>
    intro acc v
    simp only [List.foldl_cons]
    rw [ih]
    simp only [List.mem_insert_iff, List.mem_cons]
    tauto

/-- Set-inserting a list of values preserves freedom from duplicates. -/
lemma nodup_insertAll (conns : List Int) :
    ∀ (acc : List Int), acc.Nodup → (conns.foldl (fun a c => a.insert c) acc).Nodup := by
  induction conns with
  | nil => intro acc h; exact h
  | cons c cs ih =>
    intro acc h
    simp only [List.foldl_cons]
    exact ih _ (h.insert)

/-- Membership in one descending step of the active-set sweep. -/
lemma activeFold_mem (p : Params) (genes : List Int) (acc : List Int) (k : Nat) (v : Int) :
    v ∈ activeFold p genes acc k ↔
      v ∈ acc ∨ ((k : Int) ∈ acc ∧ v ∈ connections p genes k) := by
  unfold activeFold
  split
  · next hk =>
    rw [mem_insertAll]
    tauto
  · next hk =>
    tauto

/-- One descending step of the sweep preserves freedom from duplicates. -/
lemma activeFold_nodup (p : Params) (genes : List Int) (acc : List Int) (k : Nat)
    (h : acc.Nodup) : (activeFold p genes acc k).Nodup := by
  unfold activeFold
  split
  · exact nodup_insertAll _ _ h
  · exact h

/-- The whole sweep preserves freedom from duplicates. -/
lemma foldl_active_nodup (p : Params) (genes : List Int) :
    ∀ (ks : List Nat) (acc : List Int), acc.Nodup →
      (ks.foldl (activeFold p genes) acc).Nodup := by
  intro ks
  induction ks with
  | nil => intro acc h; exact h
  | cons k rest ih =>
    intro acc h
    exact ih _ (activeFold_nodup p genes acc k h)

/-- Reachability is monotone as the node floor decreases. -/
lemma reachable_of_succ (p : Params) (genes : List Int) (k : Nat) (v : Int)
    (h : Reachable p genes (k + 1) v) : Reachable p genes k v := by
  induction h with
  | out hv => exact .out hv
  | step hr hk hg hv ih => exact .step ih (by omega) hg hv

/-- At floor `graph_length`, reachability degenerates to the output genes. -/
lemma reachable_top (p : Params) (genes : List Int) (v : Int) :
    Reachable p genes p.graph_length v ↔ v ∈ lastSlice genes p.output_length := by
  constructor
  · intro h
    cases h with
    | out hv => exact hv
    | step hr hk hg hv => exact absurd hg (by omega)
  · exact .out

/-- Unfolding one node from the reachability floor: descending past node `n`
adds exactly the connections of `n` when `n` is reachable above itself.  The
acyclicity hypothesis (connections point strictly below their node) makes the
single pass complete. -/
lemma reach_step_iff (p : Params) (genes : List Int)
    (hacyc : ∀ k, k < p.graph_length → ∀ w ∈ connections p genes k, w < (k : Int))
    (n : Nat) (hn : n < p.graph_length) (v : Int) :
    Reachable p genes n v ↔
      Reachable p genes (n + 1) v ∨
        (Reachable p genes (n + 1) (n : Int) ∧ v ∈ connections p genes n) := by
  constructor
  · intro h
    induction h with
    | out hv => exact Or.inl (.out hv)
    | @step m w hr hk hg hv ih =>
      by_cases hm : m = n
      · subst hm
        rcases ih with ih | ⟨ih1, -⟩
        · exact Or.inr ⟨ih, hv⟩
        · exact Or.inr ⟨ih1, hv⟩
      · have hm1 : n + 1 ≤ m := by omega
        rcases ih with ih | ⟨-, ihm⟩
        · exact Or.inl (.step ih hm1 hg hv)
        · have hlt := hacyc n hn _ ihm
          exact absurd hlt (by omega)
  · intro h
    rcases h with h | ⟨hn', hv⟩
    · exact reachable_of_succ p genes n v h
    · exact .step (reachable_of_succ p genes n _ hn') (le_refl n) hn hv

/-- The descending sweep over nodes `n-1 … 0`, started from a set
characterized by reachability at floor `n`, computes reachability at
floor 0. -/
lemma foldl_reach (p : Params) (genes : List Int)
    (hacyc : ∀ k, k < p.graph_length → ∀ w ∈ connections p genes k, w < (k : Int)) :
    ∀ (n : Nat) (acc : List Int), n ≤ p.graph_length →
      (∀ w : Int, w ∈ acc ↔ Reachable p genes n w) →
      ∀ v : Int, v ∈ (List.range n).reverse.foldl (activeFold p genes) acc ↔
        Reachable p genes 0 v := by
  intro n
  induction n with
  | zero =>
    intro acc _ hacc v
    simp only [List.range_zero, List.reverse_nil, List.foldl_nil]
    exact hacc v
  | succ n ih =>
    intro acc hle hacc v
    have hstep : ∀ w : Int, w ∈ activeFold p genes acc n ↔ Reachable p genes n w := by
      intro w
      rw [activeFold_mem, hacc w, hacc (n : Int)]
      exact (reach_step_iff p genes hacyc n (by omega) w).symm
    have hrec := ih (activeFold p genes acc n) (by omega) hstep v
    rw [List.range_succ, List.reverse_append, List.reverse_singleton,
      List.singleton_append, List.foldl_cons]
    exact hrec

/-- The connection genes of node `k` satisfy the invariant's bounds. -/
lemma connections_bounds (p : Params) (genes : List Int) (hinv : geneInvariant p genes)
    (k : Nat) (hk : k < p.graph_length) :
    ∀ w ∈ connections p genes k, -(p.input_length : Int) ≤ w ∧ w < (k : Int) := by
  intro w hw
  unfold connections at hw
  rw [List.mem_take_iff_getElem] at hw
  obtain ⟨j, hj, hjw⟩ := hw
  have hj1 : j < node_step p - 1 := lt_of_lt_of_le hj (min_le_left _ _)
  have hj2 : j < (genes.drop (node_step p * k + 1)).length := lt_of_lt_of_le hj (min_le_right _ _)
  have hstep : 0 < node_step p := by unfold node_step; omega
  have hidx : node_step p * k + 1 + j < genes.length := by
    rw [List.length_drop] at hj2
    omega
  have hw' : genes.getD (node_step p * k + 1 + j) 0 = w := by
    rw [List.getD_eq_getElem?_getD, ← List.getElem?_drop, List.getElem?_eq_getElem hj2, hjw]
    rfl
  have heq : node_step p * k + 1 + j = (1 + j) + k * node_step p := by
    rw [Nat.mul_comm]
    omega
  have hdiv : (node_step p * k + 1 + j) / node_step p = k := by
    rw [heq, Nat.add_mul_div_right _ _ hstep, Nat.div_eq_of_lt (by omega)]
    omega
  have hmod : (node_step p * k + 1 + j) % node_step p ≠ 0 := by
    rw [heq, Nat.add_mul_mod_self_right, Nat.mod_eq_of_lt (by omega)]
    omega
  have hb := (hinv _ hidx).2 (by rw [hdiv]; exact hk) hmod
  rw [hw', hdiv] at hb
  exact hb

/-- The output genes satisfy the invariant's bounds. -/
lemma outputs_bounds (p : Params) (genes : List Int) (hinv : geneInvariant p genes)
    (hlen : genes.length = geneCount p) (hol : 0 < p.output_length) :
    ∀ w ∈ lastSlice genes p.output_length,
      -(p.input_length : Int) ≤ w ∧ w < (p.graph_length : Int) := by
  intro w hw
  unfold lastSlice at hw
  rw [if_neg (by omega)] at hw
  obtain ⟨j, hj⟩ := List.mem_iff_getElem?.mp hw
  rw [List.getElem?_drop] at hj
  obtain ⟨hjlt, hjw⟩ := List.getElem?_eq_some.mp hj
  have hstep : 0 < node_step p := by unfold node_step; omega
  have hcnt : genes.length = p.graph_length * node_step p + p.output_length := hlen
  have hge : p.graph_length * node_step p ≤ genes.length - p.output_length + j := by omega
  have hdiv : p.graph_length ≤ (genes.length - p.output_length + j) / node_step p :=
    (Nat.le_div_iff_mul_le hstep).mpr hge
  have hb := (hinv _ hjlt).1 hdiv
  have hw' : genes.getD (genes.length - p.output_length + j) 0 = w := by
    rw [List.getD_eq_getElem?_getD, List.getElem?_eq_getElem hjlt, hjw]
    rfl
  rw [hw'] at hb
  exact hb

/-- The active list is the duplicate-free ascending list of exactly the
non-negative backward-reachable values (shared workhorse behind the
refinement claim). -/
lemma dan_spec (p : Params) (genes : List Int)
    (hlen : genes.length = geneCount p) (hinv : geneInvariant p genes)
    (hol : 0 < p.output_length) :
    List.Sorted (· ≤ ·) (determine_active_nodes p genes) ∧
    (determine_active_nodes p genes).Nodup ∧
    ∀ v : Int, v ∈ determine_active_nodes p genes ↔ 0 ≤ v ∧ Reachable p genes 0 v := by
  have hacyc : ∀ k, k < p.graph_length → ∀ w ∈ connections p genes k, w < (k : Int) :=
    fun k hk w hw => (connections_bounds p genes hinv k hk w hw).2
  have hperm := List.perm_insertionSort (· ≤ ·)
    (((List.range p.graph_length).reverse.foldl (activeFold p genes)
      (lastSlice genes p.output_length).dedup).filter (fun a => 0 ≤ a))
  refine ⟨List.sorted_insertionSort _ _, ?_, ?_⟩
  · unfold determine_active_nodes
    exact hperm.nodup_iff.mpr
      ((foldl_active_nodup p genes _ _ (List.nodup_dedup _)).filter _)
  · intro v
    unfold determine_active_nodes
    rw [hperm.mem_iff, List.mem_filter]
    have hinit : ∀ w : Int, w ∈ (lastSlice genes p.output_length).dedup ↔
        Reachable p genes p.graph_length w := by
      intro w
      rw [List.mem_dedup]
      exact (reachable_top p genes w).symm
    rw [foldl_reach p genes hacyc p.graph_length _ (le_refl _) hinit v]
    simp only [decide_eq_true_eq]
    exact ⟨fun ⟨h1, h2⟩ => ⟨h2, h1⟩, fun ⟨h1, h2⟩ => ⟨h2, h1⟩⟩

/-- With at least one output gene, the code's Python slice
`genes[-output_length:]` is exactly the output genes. -/
lemma lastSlice_eq_output_genes (p : Params) (genes : List Int)
    (hol : 0 < p.output_length) :
    lastSlice genes p.output_length = output_genes p genes := by
  unfold lastSlice output_genes
  rw [if_neg (by omega)]

/-- With at least one output gene, reachability from the code's seed agrees
with the spec's reachability from the output genes. -/
lemma reachable_iff_out (p : Params) (genes : List Int) (hol : 0 < p.output_length)
    (v : Int) : Reachable p genes 0 v ↔ ReachableOut p genes v := by
  constructor
  · intro h
    induction h with
    | out hv =>
      refine .out ?_
      rw [← lastSlice_eq_output_genes p genes hol]
      exact hv
    | step hr hk hg hv ih => exact .step ih hg hv
  · intro h
    induction h with
    | out hv =>
      refine .out ?_
      rw [lastSlice_eq_output_genes p genes hol]
      exact hv
    | step hr hg hv ih => exact .step ih (Nat.zero_le _) hg hv

/-- C2, counterexample: with `output_length = 0` (a gene array the claim's
invariant admits), Python's `genes[-0:]` seeds the sweep with EVERY gene, so
`determine_active_nodes` returns `[0]` for the genome `[0, -1]` over `p2c`,
yet nothing is backward-reachable from the (empty) set of output genes — the
produced set is not the reachable set. -/
theorem c2_counterexample :
    geneInvariant p2c [0, -1] ∧ ([0, -1] : List Int).length = geneCount p2c ∧
    determine_active_nodes p2c [0, -1] = [0] ∧ ¬ ReachableOut p2c [0, -1] 0 := by
  refine ⟨by decide, by decide, by decide, ?_⟩
  have hall : ∀ v : Int, ¬ ReachableOut p2c [0, -1] v := by
    intro v h
    induction h with
    | out hv =>
      rw [show output_genes p2c [0, -1] = [] from rfl] at hv
      exact absurd hv (List.not_mem_nil _)
    | step hr hg hv ih => exact ih
  exact hall 0

/-- C2 (amended): for gene arrays of the constructed length satisfying the
acyclicity invariant, provided `output_length ≥ 1`, the single descending
pass of `determine_active_nodes` produces exactly the set of non-negative
node indices reachable by full backward traversal from the output genes
through connection genes, as a duplicate-free list sorted ascending with
negative (input) references excluded. -/
theorem c2_active_nodes (p : Params) (genes : List Int)
    (hlen : genes.length = geneCount p) (hinv : geneInvariant p genes)
    (hol : 0 < p.output_length) :
    List.Sorted (· ≤ ·) (determine_active_nodes p genes) ∧
    (determine_active_nodes p genes).Nodup ∧
    ∀ v : Int, v ∈ determine_active_nodes p genes ↔ 0 ≤ v ∧ ReachableOut p genes v := by
  obtain ⟨hs, hn, hm⟩ := dan_spec p genes hlen hinv hol
  refine ⟨hs, hn, ?_⟩
  intro v
  rw [hm v, reachable_iff_out p genes hol v]

/-- C2 witness: the amended theorem applied to the concrete gene array
`[0, -1, 0, -1, 0]` over `p3`. -/
theorem c2_witness :
    List.Sorted (· ≤ ·) (determine_active_nodes p3 [0, -1, 0, -1, 0]) ∧
    (determine_active_nodes p3 [0, -1, 0, -1, 0]).Nodup ∧
    ∀ v : Int, v ∈ determine_active_nodes p3 [0, -1, 0, -1, 0] ↔
      0 ≤ v ∧ ReachableOut p3 [0, -1, 0, -1, 0] v :=
  c2_active_nodes p3 [0, -1, 0, -1, 0] (by decide) (by decide) (by decide)

/-! ### Zero asymmetric phenotypic difference implies identical evaluation
(C3) -/

/-- Two equally long lists with no zipped difference are equal. -/
lemma diff_count_eq_zero : ∀ (a b : List Int), a.length = b.length →
    diff_count a b = 0 → a = b := by
  intro a
  induction a with
  | nil =>
    intro b hl _
    cases b with
    | nil => rfl
    | cons y ys => simp at hl
  | cons x xs ih =>
    intro b hl h0
    cases b with
    | nil => simp at hl
    | cons y ys =>
      unfold diff_count at h0
      rw [List.zip_cons_cons, List.filter_cons] at h0
      split at h0
      · simp at h0
      · next hcond =>
        have hxy : x = y := by simpa using hcond
        rw [hxy, ih ys (by simpa using hl) h0]

/-- If the asymmetric-difference loop returns 0, the incoming count was 0 and
every visited node has equal connection slices and equal function genes in
the two gene arrays. -/
lemma asymFold_zero (p : Params) (genes1 genes2 : List Int) :
    ∀ (active : List Int) (count : Nat), asymFold p genes1 genes2 active count = some 0 →
      count = 0 ∧ ∀ node ∈ active,
        diff_count (connections p genes1 node.toNat) (connections p genes2 node.toNat) = 0 ∧
        ∃ g, pyGet genes1 (node * (node_step p : Int)) = some g ∧
          pyGet genes2 (node * (node_step p : Int)) = some g := by
  intro active
  induction active with
  | nil =>
    intro count h
    simp only [asymFold, Option.some.injEq] at h
    exact ⟨h, by simp⟩
  | cons node rest ih =>
    intro count h
    simp only [asymFold] at h
    split at h
    · next g1 g2 hg1 hg2 =>
      obtain ⟨hc, hrest⟩ := ih _ h
      have hcount : count = 0 := by omega
      have hdc : diff_count (connections p genes1 node.toNat)
          (connections p genes2 node.toNat) = 0 := by omega
      have hg : g1 = g2 := by
        by_contra hne
        rw [if_pos hne] at hc
        omega
      refine ⟨hcount, ?_⟩
      intro nd hnd
      rcases List.mem_cons.mp hnd with rfl | hnd
      · refine ⟨hdc, g1, hg1, ?_⟩
        rw [hg]
        exact hg2
      · exact hrest nd hnd
    · exact absurd h (by simp)

/-- Values already collected stay in the sweep's accumulator. -/
lemma foldl_active_mono (p : Params) (genes : List Int) :
    ∀ (ks : List Nat) (acc : List Int) (v : Int), v ∈ acc →
      v ∈ ks.foldl (activeFold p genes) acc := by
  intro ks
  induction ks with
  | nil => intro acc v h; exact h
  | cons k rest ih =>
    intro acc v h
    exact ih _ v ((activeFold_mem p genes acc k v).mpr (Or.inl h))

/-- The active-node sweep only reads the connection slices of nodes that end
up in its accumulator, so two gene arrays agreeing there produce identical
sweeps. -/
lemma foldl_active_congr (p : Params) (genes1 genes2 : List Int) :
    ∀ (ks : List Nat) (acc : List Int),
      (∀ k ∈ ks, (k : Int) ∈ ks.foldl (activeFold p genes1) acc →
        connections p genes1 k = connections p genes2 k) →
      ks.foldl (activeFold p genes1) acc = ks.foldl (activeFold p genes2) acc := by
  intro ks
  induction ks with
  | nil => intro acc _; rfl
  | cons k rest ih =>
    intro acc hcong
    have hk : activeFold p genes1 acc k = activeFold p genes2 acc k := by
      unfold activeFold
      by_cases hmem : (k : Int) ∈ acc
      · rw [if_pos hmem, if_pos hmem, hcong k (List.mem_cons_self _ _) ?_]
        rw [List.foldl_cons]
        exact foldl_active_mono p genes1 rest _ _
          ((activeFold_mem p genes1 acc k _).mpr (Or.inl hmem))
      · rw [if_neg hmem, if_neg hmem]
    simp only [List.foldl_cons]
    rw [hk]
    apply ih
    intro k2 hk2 hmem2
    apply hcong k2 (List.mem_cons_of_mem _ hk2)
    rw [List.foldl_cons, hk]
    exact hmem2

/-- The evaluation loop reads only the function gene and connection slice of
each active node, so two gene arrays agreeing there evaluate identically on
any scratch buffer. -/
lemma evalNodes_congr (p : Params) (F : Int → List Int → Int) (genes1 genes2 : List Int) :
    ∀ (activeL : List Int),
      (∀ node ∈ activeL,
        pyGet genes1 (node * (node_step p : Int)) = pyGet genes2 (node * (node_step p : Int)) ∧
        connections p genes1 node.toNat = connections p genes2 node.toNat) →
      ∀ scratch, evalNodes p F genes1 activeL scratch = evalNodes p F genes2 activeL scratch := by
  intro activeL
  induction activeL with
  | nil => intro _ scratch; rfl
  | cons node rest ih =>
    intro hc scratch
    simp only [evalNodes]
    rw [(hc node (List.mem_cons_self _ _)).1, (hc node (List.mem_cons_self _ _)).2]
    cases pyGet genes2 (node * (node_step p : Int)) with
    | none => rfl
    | some fid =>
      dsimp only
      cases readArgs scratch (connections p genes2 node.toNat) with
      | none => rfl
      | some args =>
        dsimp only
        cases pySet scratch node (some (F fid args)) with
        | none => rfl
        | some s2 =>
          dsimp only
          exact ih (fun nd hnd => hc nd (List.mem_cons_of_mem _ hnd)) s2

/-- The last slices of two equally long gene arrays have equal length. -/
lemma lastSlice_length_congr (genes1 genes2 : List Int) (n : Nat)
    (h : genes1.length = genes2.length) :
    (lastSlice genes1 n).length = (lastSlice genes2 n).length := by
  unfold lastSlice
  split <;> simp [List.length_drop, h]

/-- The connection slices of two equally long gene arrays have equal
length. -/
lemma connections_length_congr (p : Params) (genes1 genes2 : List Int) (k : Nat)
    (h : genes1.length = genes2.length) :
    (connections p genes1 k).length = (connections p genes2 k).length := by
  unfold connections
  simp [List.length_take, List.length_drop, h]

/-- C3: if the parent's asymmetric phenotypic difference against a mutant of
the same parameters (with both active lists determined from their own genes)
is 0, then the two individuals evaluate identically on every input vector of
the configured length and every starting scratch buffer. -/
theorem c3_neutral_same_eval (p : Params) (F : Int → List Int → Int)
    (parent mutant : Individual)
    (hp1 : parent.params = p) (hp2 : mutant.params = p)
    (hl1 : parent.genes.length = geneCount p) (hl2 : mutant.genes.length = geneCount p)
    (ha1 : parent.active = determine_active_nodes p parent.genes)
    (ha2 : mutant.active = determine_active_nodes p mutant.genes)
    (h0 : asym_phenotypic_difference p parent.genes parent.active mutant.genes = some 0)
    (inputs : List Int) (hin : inputs.length = p.input_length)
    (scratch0 : List (Option Int)) :
    evaluate p F parent.genes parent.active inputs scratch0 =
      evaluate p F mutant.genes mutant.active inputs scratch0 := by
  have hlen12 : parent.genes.length = mutant.genes.length := by rw [hl1, hl2]
  unfold asym_phenotypic_difference at h0
  obtain ⟨hout0, hnodes⟩ := asymFold_zero p parent.genes mutant.genes parent.active _ h0
  have houts : lastSlice parent.genes p.output_length =
      lastSlice mutant.genes p.output_length :=
    diff_count_eq_zero _ _ (lastSlice_length_congr _ _ _ hlen12) hout0
  have hdan : determine_active_nodes p parent.genes =
      determine_active_nodes p mutant.genes := by
    unfold determine_active_nodes
    rw [houts]
    rw [foldl_active_congr p parent.genes mutant.genes _ _ ?_]
    intro k hk hmem
    have hk0 : (0 : Int) ≤ (k : Int) := by omega
    have hfil : (k : Int) ∈ ((List.range p.graph_length).reverse.foldl
        (activeFold p parent.genes)
        (lastSlice mutant.genes p.output_length).dedup).filter (fun a => 0 ≤ a) := by
      rw [List.mem_filter]
      exact ⟨hmem, by simp⟩
    have hsort : (k : Int) ∈ determine_active_nodes p parent.genes := by
      unfold determine_active_nodes
      rw [(List.perm_insertionSort _ _).mem_iff, houts]
      exact hfil
    rw [← ha1] at hsort
    obtain ⟨hdc, -⟩ := hnodes _ hsort
    have := diff_count_eq_zero _ _
      (connections_length_congr p parent.genes mutant.genes _ hlen12) hdc
    simpa using this
  have hact12 : parent.active = mutant.active := by
    rw [ha1, ha2, hdan]
  have hcong : ∀ node ∈ mutant.active,
      pyGet parent.genes (node * (node_step p : Int)) =
        pyGet mutant.genes (node * (node_step p : Int)) ∧
      connections p parent.genes node.toNat = connections p mutant.genes node.toNat := by
    intro node hnode
    rw [← hact12] at hnode
    obtain ⟨hdc, g, hg1, hg2⟩ := hnodes node hnode
    refine ⟨by rw [hg1, hg2], ?_⟩
    exact diff_count_eq_zero _ _
      (connections_length_congr p parent.genes mutant.genes _ hlen12) hdc
  unfold evaluate
  rw [hact12, evalNodes_congr p F parent.genes mutant.genes mutant.active hcong
    (loadInputs scratch0 inputs)]
  cases evalNodes p F mutant.genes mutant.active (loadInputs scratch0 inputs) with
  | none => rfl
  | some s =>
    dsimp only
    rw [houts]

/-- C3 witness: `parent1` and its neutral variant `mutant3a` (differing only
in the inactive node 1's connection gene) evaluate identically on input
`[1]`. -/
theorem c3_witness :
    evaluate p1p andF parent1.genes parent1.active [1] (List.replicate 3 none) =
      evaluate p1p andF mutant3a.genes mutant3a.active [1] (List.replicate 3 none) :=
  c3_neutral_same_eval p1p andF parent1 mutant3a rfl rfl (by decide) (by decide)
    rfl rfl (by decide) [1] (by decide) (List.replicate 3 none)

/-! ### Evaluation safety (C10) -/

/-- `pyGet` at a natural index is plain list lookup. -/
lemma pyGet_nonneg {α : Type} (l : List α) (n : Nat) : pyGet l (n : Int) = l[n]? := by
  unfold pyGet
  rw [if_neg (by omega), Int.toNat_natCast]

/-- `pyGet` at an in-range negative index counts from the end. -/
lemma pyGet_neg {α : Type} (l : List α) (i : Int) (hi : i < 0)
    (hge : 0 ≤ (l.length : Int) + i) :
    pyGet l i = l[((l.length : Int) + i).toNat]? := by
  unfold pyGet
  rw [if_pos hi, if_neg (by omega)]

/-- `pySet` at an in-range natural index is plain list update. -/
lemma pySet_nonneg {α : Type} (l : List α) (n : Nat) (v : α) (h : n < l.length) :
    pySet l (n : Int) v = some (l.set n v) := by
  unfold pySet
  rw [if_neg (by omega), if_pos (by omega), Int.toNat_natCast]

/-- Reading a list of slots succeeds (with one value per slot) when every
slot read yields a written value. -/
lemma readArgs_some (scratch : List (Option Int)) :
    ∀ (cs : List Int), (∀ c ∈ cs, ∃ x, pyGet scratch c = some (some x)) →
      ∃ out, readArgs scratch cs = some out ∧ out.length = cs.length := by
  intro cs
  induction cs with
  | nil => intro _; exact ⟨[], rfl, rfl⟩
  | cons c cs ih =>
    intro h
    obtain ⟨x, hx⟩ := h c (List.mem_cons_self _ _)
    obtain ⟨out, hout, hlen⟩ := ih (fun c2 hc2 => h c2 (List.mem_cons_of_mem _ hc2))
    refine ⟨x :: out, ?_, by simp [hlen]⟩
    simp only [readArgs, hx, hout]
    rfl

/-- Under the acyclicity invariant every backward-reachable value is below
`graph_length`. -/
lemma reachable_lt_graph (p : Params) (genes : List Int) (hinv : geneInvariant p genes)
    (hlen : genes.length = geneCount p) (hol : 0 < p.output_length) (v : Int)
    (h : Reachable p genes 0 v) : v < (p.graph_length : Int) := by
  induction h with
  | out hv => exact (outputs_bounds p genes hinv hlen hol _ hv).2
  | @step m w hr hk hg hv ih =>
    have := (connections_bounds p genes hinv m hg w hv).2
    omega

/-- Core of C10: running the active nodes in ascending order succeeds when
every active node is a real node whose connections point at inputs or at
strictly smaller active nodes; the input region and every processed node end
up written. -/
lemma evalNodes_safe (p : Params) (F : Int → List Int → Int) (genes : List Int)
    (activeL : List Int)
    (hmemL : ∀ v ∈ activeL, 0 ≤ v ∧ v.toNat < p.graph_length)
    (hconn : ∀ v ∈ activeL, ∀ c ∈ connections p genes v.toNat,
      (-(p.input_length : Int) ≤ c ∧ c < v) ∧ (0 ≤ c → c ∈ activeL))
    (hglen : geneCount p ≤ genes.length) :
    ∀ (todo : List Int) (scratch : List (Option Int)),
      todo.Pairwise (· < ·) → (∀ v ∈ todo, v ∈ activeL) →
      scratch.length = p.graph_length + p.input_length →
      (∀ j, p.graph_length ≤ j → j < p.graph_length + p.input_length →
        ∃ x, scratch[j]? = some (some x)) →
      (∀ v ∈ activeL, v ∉ todo → ∃ x, scratch[v.toNat]? = some (some x)) →
      ∃ scratch2, evalNodes p F genes todo scratch = some scratch2 ∧
        scratch2.length = p.graph_length + p.input_length ∧
        (∀ j : Nat, (∃ x, scratch[j]? = some (some x)) →
          ∃ x, scratch2[j]? = some (some x)) ∧
        ∀ v ∈ activeL, ∃ x, scratch2[v.toNat]? = some (some x) := by
  intro todo
  induction todo with
  | nil =>
    intro scratch _ _ hslen _ hdone
    exact ⟨scratch, rfl, hslen, fun _ h => h, fun v hv => hdone v hv (by simp)⟩
  | cons node rest ih =>
    intro scratch hpw htodo hslen hinput hdone
    have hnodeL : node ∈ activeL := htodo node (List.mem_cons_self _ _)
    obtain ⟨hn0, hng⟩ := hmemL node hnodeL
    obtain ⟨n, rfl⟩ : ∃ n : Nat, node = (n : Int) :=
      ⟨node.toNat, (Int.toNat_of_nonneg hn0).symm⟩
    have htn : ((n : Int)).toNat = n := Int.toNat_natCast n
    rw [htn] at hng
    have hstep : 0 < node_step p := by unfold node_step; omega
    have hidx : n * node_step p < genes.length := by
      have h1 : (n + 1) * node_step p ≤ p.graph_length * node_step p :=
        Nat.mul_le_mul_right _ (by omega)
      have h2 : geneCount p = p.graph_length * node_step p + p.output_length := rfl
      have h3 : n * node_step p + node_step p = (n + 1) * node_step p := by ring
      omega
    have hcast : ((n : Int) * (node_step p : Int)) = ((n * node_step p : Nat) : Int) := by
      push_cast
      ring
    have hfid : ∃ fid, pyGet genes ((n : Int) * (node_step p : Int)) = some fid := by
      rw [hcast, pyGet_nonneg]
      exact ⟨_, List.getElem?_eq_getElem hidx⟩
    obtain ⟨fid, hfid⟩ := hfid
    have hread : ∀ c ∈ connections p genes n, ∃ x, pyGet scratch c = some (some x) := by
      intro c hc
      obtain ⟨⟨hc1, hc2⟩, hc3⟩ := hconn _ hnodeL c (by rw [htn]; exact hc)
      by_cases hcneg : c < 0
      · have hbound : 0 ≤ (scratch.length : Int) + c := by
          rw [hslen]
          push_cast
          omega
        rw [pyGet_neg scratch c hcneg hbound]
        have hj1 : p.graph_length ≤ ((scratch.length : Int) + c).toNat := by
          rw [hslen]
          omega
        have hj2 : ((scratch.length : Int) + c).toNat < p.graph_length + p.input_length := by
          rw [hslen]
          omega
        exact hinput _ hj1 hj2
      · push_neg at hcneg
        have hcL := hc3 hcneg
        have hcnotodo : c ∉ (n : Int) :: rest := by
          intro hmemc
          rcases List.mem_cons.mp hmemc with rfl | hmem2
          · omega
          · have := (List.pairwise_cons.mp hpw).1 c hmem2
            omega
        obtain ⟨x, hx⟩ := hdone c hcL hcnotodo
        obtain ⟨m, rfl⟩ : ∃ m : Nat, c = (m : Int) := ⟨c.toNat, (Int.toNat_of_nonneg hcneg).symm⟩
        rw [pyGet_nonneg]
        rw [Int.toNat_natCast] at hx
        exact ⟨x, hx⟩
    obtain ⟨args, hargs, -⟩ := readArgs_some scratch _ hread
    have hnlen : n < scratch.length := by omega
    have hset : pySet scratch (n : Int) (some (F fid args)) =
        some (scratch.set n (some (F fid args))) := pySet_nonneg scratch n _ hnlen
    have hih := ih (scratch.set n (some (F fid args)))
      (List.pairwise_cons.mp hpw).2
      (fun v hv => htodo v (List.mem_cons_of_mem _ hv))
      (by rw [List.length_set]; exact hslen)
      (fun j hj1 hj2 => by
        rw [List.getElem?_set_ne (by omega)]
        exact hinput j hj1 hj2)
      (fun v hv hnv => by
        by_cases hveq : v = (n : Int)
        · subst hveq
          refine ⟨F fid args, ?_⟩
          rw [Int.toNat_natCast, List.getElem?_set_self hnlen]
        · have hvnotodo : v ∉ (n : Int) :: rest := by
            intro hmemv
            rcases List.mem_cons.mp hmemv with h | h
            · exact hveq h
            · exact hnv h
          obtain ⟨x, hx⟩ := hdone v hv hvnotodo
          refine ⟨x, ?_⟩
          rw [List.getElem?_set_ne ?_]
          · exact hx
          · intro heq
            apply hveq
            have hv0 := (hmemL v hv).1
            omega)
    obtain ⟨scratch2, hev, hs2len, hpres, hall⟩ := hih
    refine ⟨scratch2, ?_, hs2len, ?_, hall⟩
    · simp only [evalNodes]
      rw [hfid]
      dsimp only
      rw [htn, hargs]
      dsimp only
      rw [hset]
      dsimp only
      exact hev
    · intro j hj
      apply hpres
      by_cases hjn : j = n
      · subst hjn
        exact ⟨F fid args, by rw [List.getElem?_set_self hnlen]⟩
      · obtain ⟨x, hx⟩ := hj
        exact ⟨x, by rw [List.getElem?_set_ne (fun h => hjn h.symm)]; exact hx⟩

/-- C10, counterexample: with `input_length = 0` the invariant and active-set
consistency hold for the genome `[5, 0]` over `p10c`, and the inputs list `[]`
has exactly `input_length` entries, yet evaluation fails: Python's
`scratch[-0:] = []` empties the scratch buffer and the node write raises. -/
theorem c10_counterexample :
    geneInvariant p10c [5, 0] ∧ ([5, 0] : List Int).length = geneCount p10c ∧
    determine_active_nodes p10c [5, 0] = [0] ∧
    evaluate p10c andF [5, 0] [0] [] (List.replicate 1 none) = none := by
  refine ⟨by decide, by decide, by decide, by decide⟩

/-- C10 (amended): for an individual whose gene array has the constructed
length and satisfies the acyclicity invariant, whose active list is computed
from its own genes, and whose parameters have `input_length ≥ 1` and
`output_length ≥ 1`, evaluation on a fresh all-`None` scratch buffer with an
input vector of exactly `input_length` values performs only in-bounds scratch
accesses, reads only slots written earlier in the same call (input slots or
smaller active nodes), and returns exactly `output_length` values. -/
theorem c10_evaluate_safe (p : Params) (F : Int → List Int → Int)
    (genes active inputs : List Int)
    (hinv : geneInvariant p genes) (hlen : genes.length = geneCount p)
    (hact : active = determine_active_nodes p genes)
    (hil : 1 ≤ p.input_length) (hol : 0 < p.output_length)
    (hin : inputs.length = p.input_length) :
    ∃ out, evaluate p F genes active inputs
      (List.replicate (p.graph_length + p.input_length) none) = some out ∧
      out.length = p.output_length := by
  subst hact
  obtain ⟨hsort, hnodup, hmem⟩ := dan_spec p genes hlen hinv hol
  have hpw : (determine_active_nodes p genes).Pairwise (· < ·) :=
    (hsort.and hnodup).imp (fun h => lt_of_le_of_ne h.1 h.2)
  have hbound : ∀ v ∈ determine_active_nodes p genes, 0 ≤ v ∧ v.toNat < p.graph_length := by
    intro v hv
    obtain ⟨h0, hr⟩ := (hmem v).mp hv
    have hlt := reachable_lt_graph p genes hinv hlen hol v hr
    exact ⟨h0, by omega⟩
  have hconn : ∀ v ∈ determine_active_nodes p genes, ∀ c ∈ connections p genes v.toNat,
      (-(p.input_length : Int) ≤ c ∧ c < v) ∧
      (0 ≤ c → c ∈ determine_active_nodes p genes) := by
    intro v hv c hc
    obtain ⟨h0, hr⟩ := (hmem v).mp hv
    obtain ⟨-, hvg⟩ := hbound v hv
    obtain ⟨hb1, hb2⟩ := connections_bounds p genes hinv v.toNat hvg c hc
    have hveq : ((v.toNat : Nat) : Int) = v := Int.toNat_of_nonneg h0
    refine ⟨⟨hb1, by omega⟩, ?_⟩
    intro hc0
    exact (hmem c).mpr ⟨hc0, Reachable.step (by rw [hveq]; exact hr) (by omega) hvg hc⟩
  have hinlen0 : inputs.length ≠ 0 := by omega
  have hload : loadInputs (List.replicate (p.graph_length + p.input_length) none) inputs =
      List.replicate p.graph_length none ++ inputs.reverse.map some := by
    unfold loadInputs
    rw [if_neg hinlen0, List.length_replicate, hin, Nat.add_sub_cancel,
      List.take_replicate, min_eq_left (Nat.le_add_right _ _)]
  have hslen : (List.replicate p.graph_length (none : Option Int) ++
      inputs.reverse.map some).length = p.graph_length + p.input_length := by
    simp [hin]
  have hinput : ∀ j, p.graph_length ≤ j → j < p.graph_length + p.input_length →
      ∃ x, (List.replicate p.graph_length (none : Option Int) ++
        inputs.reverse.map some)[j]? = some (some x) := by
    intro j hj1 hj2
    rw [List.getElem?_append_right (by simpa using hj1), List.length_replicate,
      List.getElem?_map]
    have hjr : j - p.graph_length < inputs.reverse.length := by
      rw [List.length_reverse, hin]
      omega
    rw [List.getElem?_eq_getElem hjr]
    exact ⟨_, rfl⟩
  obtain ⟨scratch2, hev, hs2len, hpres, hall⟩ := evalNodes_safe p F genes
    (determine_active_nodes p genes) hbound hconn (le_of_eq hlen.symm)
    (determine_active_nodes p genes)
    (List.replicate p.graph_length none ++ inputs.reverse.map some)
    hpw (fun _ hv => hv) hslen hinput (fun v hv hnv => absurd hv hnv)
  have houtread : ∀ o ∈ lastSlice genes p.output_length,
      ∃ x, pyGet scratch2 o = some (some x) := by
    intro o ho
    obtain ⟨ho1, ho2⟩ := outputs_bounds p genes hinv hlen hol o ho
    by_cases honeg : o < 0
    · have hb : 0 ≤ (scratch2.length : Int) + o := by
        rw [hs2len]
        push_cast
        omega
      rw [pyGet_neg scratch2 o honeg hb]
      have hj1 : p.graph_length ≤ ((scratch2.length : Int) + o).toNat := by
        rw [hs2len]
        omega
      have hj2 : ((scratch2.length : Int) + o).toNat < p.graph_length + p.input_length := by
        rw [hs2len]
        omega
      apply hpres
      exact hinput _ hj1 hj2
    · push_neg at honeg
      obtain ⟨m, rfl⟩ : ∃ m : Nat, o = (m : Int) := ⟨o.toNat, (Int.toNat_of_nonneg honeg).symm⟩
      have hoL : (m : Int) ∈ determine_active_nodes p genes :=
        (hmem _).mpr ⟨by omega, .out ho⟩
      obtain ⟨x, hx⟩ := hall _ hoL
      rw [pyGet_nonneg]
      rw [Int.toNat_natCast] at hx
      exact ⟨x, hx⟩
  obtain ⟨out, hout, houtlen⟩ := readArgs_some scratch2 _ houtread
  refine ⟨out, ?_, ?_⟩
  · unfold evaluate
    rw [hload, hev]
    dsimp only
    exact hout
  · rw [houtlen]
    unfold lastSlice
    rw [if_neg (by omega), List.length_drop]
    have hc : genes.length = p.graph_length * node_step p + p.output_length := hlen
    omega

/-- C10 witness: the theorem applied to the concrete genome
`[0, -1, 0, -1, 0]` over `p3` with input `[1]`. -/
theorem c10_witness :
    ∃ out, evaluate p3 andF [0, -1, 0, -1, 0]
      (determine_active_nodes p3 [0, -1, 0, -1, 0]) [1]
      (List.replicate (p3.graph_length + p3.input_length) none) = some out ∧
      out.length = p3.output_length :=
  c10_evaluate_safe p3 andF [0, -1, 0, -1, 0] _ [1] (by decide) (by decide) rfl
    (by decide) (by decide) (by decide)

/-! ### The concrete AND scenario (C7) -/

/-- Every genome the constructor can build under `p7` is one of the twelve
members of `genomes7`: the function gene is forced, the two connections come
from `randrange(-2, 0)` and the output gene from `randrange(-2, 1)`. -/
lemma mk7_genes (draws : Nat → Nat) (ind : Individual)
    (h : mkIndividual p7 draws = some ind) :
    ind.genes ∈ genomes7 ∧ ind.active = determine_active_nodes p7 ind.genes ∧
    ind.scratch = List.replicate 3 none := by
  obtain ⟨gs, hg, rfl⟩ := Option.map_eq_some'.mp h
  obtain ⟨hlen, hall⟩ := initGenes_spec p7 draws _ gs hg
  refine ⟨?_, rfl, rfl⟩
  have hlen4 : gs.length = 4 := hlen
  obtain ⟨a, b, c, e, rfl⟩ : ∃ a b c e, gs = [a, b, c, e] := by
    rcases gs with _ | ⟨a, _ | ⟨b, _ | ⟨c, _ | ⟨e, _ | ⟨f, t⟩⟩⟩⟩⟩
    · simp at hlen4
    · simp at hlen4
    · simp at hlen4
    · simp at hlen4
    · exact ⟨a, b, c, e, rfl⟩
    · simp at hlen4
  have h0 := hall 0 (by omega)
  have h1 := hall 1 (by omega)
  have h2 := hall 2 (by omega)
  have h3 := hall 3 (by omega)
  have ha : a = 0 :=
    (Option.some.inj ((rfl : random_gene p7 0 none [draws 0] = some 0).symm.trans h0)).symm
  have hb : b = -2 ∨ b = -1 := by
    have hb0 : random_gene p7 1 none [draws 1] =
        some (-2 + ((draws 1 % 2 : Nat) : Int)) := rfl
    have hval : -2 + ((draws 1 % 2 : Nat) : Int) = b :=
      Option.some.inj (hb0.symm.trans h1)
    omega
  have hc : c = -2 ∨ c = -1 := by
    have hc0 : random_gene p7 2 none [draws 2] =
        some (-2 + ((draws 2 % 2 : Nat) : Int)) := rfl
    have hval : -2 + ((draws 2 % 2 : Nat) : Int) = c :=
      Option.some.inj (hc0.symm.trans h2)
    omega
  have he : e = -2 ∨ e = -1 ∨ e = 0 := by
    have he0 : random_gene p7 3 none [draws 3] =
        some (-2 + ((draws 3 % 3 : Nat) : Int)) := rfl
    have hval : -2 + ((draws 3 % 3 : Nat) : Int) = e :=
      Option.some.inj (he0.symm.trans h3)
    omega
  subst ha
  rcases hb with rfl | rfl <;> rcases hc with rfl | rfl <;>
    rcases he with rfl | rfl | rfl <;> decide

/-- C7, counterexample: the construction draws `draws7` wire the output gene
straight to input 0 (`-1`); `Evaluate([1,0])` then returns `[1]`, not the
claimed `[0]` — the "only possible genome" premise of the scenario is
false. -/
theorem c7_counterexample :
    mkIndividual p7 draws7 = some ind7c ∧
    evaluate p7 andF ind7c.genes ind7c.active [1, 0] ind7c.scratch = some [1] := by
  exact ⟨by decide, by decide⟩

/-- C7 (amended): for every individual constructed with `graph_length=1,
input_length=2, output_length=1, max_arity=2, function_list=[AND]`,
`Evaluate([1,1])` returns `[1]`; `Evaluate([1,0])` returns `[0]` exactly when
the genome actually reads input 1 — output gene `-2`, or output gene `0` with
at least one connection gene `-2` — and may return `[1]` otherwise. -/
theorem c7_and_scenario (draws : Nat → Nat) (ind : Individual)
    (h : mkIndividual p7 draws = some ind) :
    evaluate p7 andF ind.genes ind.active [1, 1] ind.scratch = some [1] ∧
    (evaluate p7 andF ind.genes ind.active [1, 0] ind.scratch = some [0] ↔
      ind.genes.getD 3 0 = -2 ∨ (ind.genes.getD 3 0 = 0 ∧
        (ind.genes.getD 1 0 = -2 ∨ ind.genes.getD 2 0 = -2))) := by
  obtain ⟨hmem, hact, hscr⟩ := mk7_genes draws ind h
  rw [hact, hscr]
  revert hmem
  generalize ind.genes = gs
  intro hmem
  have hP : ∀ gs2 ∈ genomes7,
      evaluate p7 andF gs2 (determine_active_nodes p7 gs2) [1, 1]
        (List.replicate 3 none) = some [1] ∧
      (evaluate p7 andF gs2 (determine_active_nodes p7 gs2) [1, 0]
        (List.replicate 3 none) = some [0] ↔
        gs2.getD 3 0 = -2 ∨ (gs2.getD 3 0 = 0 ∧
          (gs2.getD 1 0 = -2 ∨ gs2.getD 2 0 = -2))) := by decide
  exact hP gs hmem

/-- C7 witness: the amended theorem applied to the concrete construction
`draws7` (whose genome is `[0, -2, -2, -1]`). -/
theorem c7_witness :
    evaluate p7 andF ind7c.genes ind7c.active [1, 1] ind7c.scratch = some [1] ∧
    (evaluate p7 andF ind7c.genes ind7c.active [1, 0] ind7c.scratch = some [0] ↔
      ind7c.genes.getD 3 0 = -2 ∨ (ind7c.genes.getD 3 0 = 0 ∧
        (ind7c.genes.getD 1 0 = -2 ∨ ind7c.genes.getD 2 0 = -2))) :=
  c7_and_scenario draws7 ind7c (by decide)

end CGP
